import Mathlib

/- Verification of the qubee-nlp linguistic pipeline (Afaan Oromoo / Qubee
   orthography).  The Python sources are shallowly embedded: text is a
   List Char, every operation is an executable Lean function translated
   from the corresponding Python function, and Unicode-library calls
   (case mapping, NFC/NFD/NFKD, combining-class tests) are modelled by
   explicit tables covering the character repertoire the library handles
   (ASCII plus the accented vowels of the Qubee diacritic tables and the
   combining marks U+0300..U+036F).  Fallible operations return Except.
   Loops whose index moves non-structurally are given explicit fuel equal
   to the input length, which the sources' own progress arguments show is
   sufficient. -/

namespace Qubee

/-! Character model: case mapping and diacritic tables (alphabet.py and
    the unicodedata calls used by the modules). -/

/-- Diacritic folding table `QubeeAlphabet.DIACRITICS` from alphabet.py. -/
def DIACRITICS : List (Char × Char) :=
  [('Á', 'A'), ('É', 'E'), ('Í', 'I'), ('Ó', 'O'), ('Ú', 'U'),
   ('á', 'a'), ('é', 'e'), ('í', 'i'), ('ó', 'o'), ('ú', 'u')]

/-- Fold one character through the DIACRITICS table (`DIACRITICS.get(c, c)`). -/
def diaFold (c : Char) : Char :=
  match DIACRITICS.lookup c with
  | some b => b
  | none => c

/-- Case-mapping table for the accented vowels of the modelled repertoire
    (Python `str.upper` on the Qubee diacritic characters). -/
def UPPER_MAP : List (Char × Char) :=
  [('á', 'Á'), ('é', 'É'), ('í', 'Í'), ('ó', 'Ó'), ('ú', 'Ú')]

/-- Lower-case direction of the same table (Python `str.lower`). -/
def LOWER_MAP : List (Char × Char) :=
  [('Á', 'á'), ('É', 'é'), ('Í', 'í'), ('Ó', 'ó'), ('Ú', 'ú')]

/-- Python `str.upper`, per character, on the modelled repertoire. -/
def pyToUpper (c : Char) : Char :=
  if 97 ≤ c.toNat ∧ c.toNat ≤ 122 then Char.ofNat (c.toNat - 32)
  else
    match UPPER_MAP.lookup c with
    | some u => u
    | none => c

/-- Python `str.lower`, per character, on the modelled repertoire. -/
def pyToLower (c : Char) : Char :=
  if 65 ≤ c.toNat ∧ c.toNat ≤ 90 then Char.ofNat (c.toNat + 32)
  else
    match LOWER_MAP.lookup c with
    | some u => u
    | none => c

/-- Python `str.isspace` / regex `\s` for the modelled repertoire:
    space, tab, newline, carriage return, vertical tab, form feed. -/
def isWsChar (c : Char) : Bool :=
  c.toNat = 32 || c.toNat = 9 || c.toNat = 10 || c.toNat = 13 ||
    c.toNat = 11 || c.toNat = 12

/-- Decimal digit test (`str.isdigit` / regex `\d` on the modelled
    repertoire). -/
def isDigitChar (c : Char) : Bool :=
  48 ≤ c.toNat && c.toNat ≤ 57

/-- Python `str.strip()`: remove leading and trailing whitespace. -/
def trimRight : List Char → List Char
  | [] => []
  | c :: r =>
    match trimRight r with
    | [] => if isWsChar c then [] else [c]
    | t => c :: t

/-- Python `str.strip()` (both ends). -/
def pyStrip (s : List Char) : List Char :=
  trimRight (s.dropWhile isWsChar)

/-- Combining marks U+0300..U+036F (`unicodedata.category(c) == "Mn"` /
    `unicodedata.combining(c) != 0` on the modelled repertoire). -/
def isCombiningMark (c : Char) : Bool :=
  0x300 ≤ c.toNat && c.toNat ≤ 0x36F

/-! Stemmer (stemmer.py, class QubeeStemmer). -/

/-- Suffix table `QubeeStemmer.suffixes`, in source order; every
    replacement in the source is the empty string. -/
def suffixes : List (List Char × List Char) :=
  [("KEESSATTI".toList, []), ("KOOTTI".toList, []), ("KOOTA".toList, []),
   ("TOOTA".toList, []), ("OOTA".toList, []), ("OTA".toList, []),
   ("NEENI".toList, []), ("ETTI".toList, []), ("ANI".toList, []), ("ANII".toList, []),
   ("ACHUU".toList, []), ("ITAN".toList, []), ("ATAN".toList, []),
   ("WWAN".toList, []), ("UU".toList, []),
   ("ICHA".toList, []), ("ICHAA".toList, []),
   ("DHA".toList, []), ("TA".toList, []), ("KEE".toList, []),
   ("SA".toList, []), ("SAA".toList, []),
   ("TIIN".toList, []), ("TTI".toList, []),
   ("TII".toList, []), ("UMMAA".toList, []),
   ("INA".toList, []), ("AA".toList, []), ("OO".toList, []),
   ("I".toList, [])]

/-- Stable insertion step for sorting by suffix length, descending: an
    element is placed after every earlier element of greater or equal
    length, which is exactly the order Python's stable
    `sorted(key=lambda x: -len(x[0]))` produces. -/
def insertByLen (a : List Char × List Char) :
    List (List Char × List Char) → List (List Char × List Char)
  | [] => [a]
  | b :: bs =>
    if a.1.length < b.1.length then b :: insertByLen a bs
    else a :: b :: bs

/-- Stable sort of the suffix table, longest suffix first
    (`sorted(self.suffixes, key=lambda x: -len(x[0]))`). -/
def sortedSuffixes : List (List Char × List Char) :=
  suffixes.foldr insertByLen []

/-- Irregular verb forms `QubeeStemmer.irregular_forms`. -/
def irregularForms : List (List Char × List Char) :=
  [("DHUFAN".toList, "DHUF".toList),
   ("DHAQAN".toList, "DHAQ".toList),
   ("BEEKAN".toList, "BEEK".toList),
   ("JEDHAN".toList, "JEDH".toList),
   ("QABAN".toList, "QAB".toList),
   ("ARGATAN".toList, "ARGAT".toList),
   ("BARATAN".toList, "BARAT".toList),
   ("DHIISAN".toList, "DHIIS".toList),
   ("FIDAN".toList, "FID".toList),
   ("KENNAN".toList, "KENN".toList)]

/-- Word normalisation at the top of `QubeeStemmer.stem`:
    `QubeeAlphabet.normalize_diacritics(word.upper())`. -/
def stemNormalize (w : List Char) : List Char :=
  (w.map pyToUpper).map diaFold

/-- The suffix-matching test of the stem loop: the suffix matches the end
    of the word and stripping it leaves a non-empty result
    (`word.endswith(suffix) and len(word) > len(suffix)`). -/
def suffixMatches (word : List Char) (p : List Char × List Char) : Bool :=
  p.1.isSuffixOf word && decide (p.1.length < word.length)

/-- `QubeeStemmer.stem`: irregular-form lookup, then the first matching
    suffix of the length-sorted table is stripped once, then the
    minimum-length guard restores the (normalised) original when fewer
    than 2 characters would remain. -/
def stem (w : List Char) : List Char :=
  let word := stemNormalize w
  match irregularForms.lookup word with
  | some root => root
  | none =>
    let stripped :=
      match sortedSuffixes.find? (suffixMatches word) with
      | some p => word.take (word.length - p.1.length) ++ p.2
      | none => word
    if stripped.length < 2 then word else stripped

/-! Stopword filter (stopwords.py, class StopWords with the default
    `include_common=True`, whose stopword set is the union of the base
    list and every category set). -/

/-- Base list `StopWords._load_default_stopwords`. -/
def baseStopwords : List (List Char) :=
  (["WAA", "WAAEE", "WAAEEN",
    "ANI", "ATE", "ISA", "ISI", "ISAN",
    "FI", "YOO", "SILAA", "ERGASII",
    "IRRA", "KEESSAA", "GADII",
    "TAA", "DHA", "JIRA",
    "AMMA", "AMMAA", "SANA",
    "EENYUU", "MAAL", "EESSAA",
    "KUN", "SUN", "KANA",
    "HAA", "TAY", "NU", "NUU"]).map String.toList

/-- Union of the category sets of `StopWords.categories` (pronouns,
    conjunctions, prepositions, auxiliary verbs, demonstratives, question
    words, adverbs), as added by `include_common=True`. -/
def categoryStopwords : List (List Char) :=
  (["ANI", "ATE", "ISAN", "ISA", "ISI", "ISII", "NU", "NUU",
    "ISIN", "KEENYA", "KEENYAA", "KEE", "KIYYA", "SANI", "SAN",
    "FI", "YOO", "SILAA", "YEROO", "ERGASII",
    "HAA", "TAY", "AKKAS", "AKKANA",
    "IRRA", "IRRAA", "IRRAAN", "IRRAATTI",
    "KEESSAA", "KEESSATTI", "GADII", "GADI",
    "WAAJIN", "FAANAA",
    "TAA", "TAUU", "DHA", "DHAUU", "JIRA", "JIRUU",
    "KUN", "SUN", "KANA", "SANA",
    "EENYUU", "MAAL", "EESSAA",
    "AMMA", "AMMAA", "ACHII", "ASI", "DHUGAA", "DHUGAATTI"]).map String.toList

/-- Full stopword set of the default StopWords instance. -/
def stopwordsAll : List (List Char) :=
  baseStopwords ++ categoryStopwords

/-- Variant generation `StopWords._get_variants`: strip one of eight
    known suffixes (with a length guard) or one of the three possessive
    endings KEE/SAA/SA (no length guard, as in the source). -/
def getVariants (word : List Char) : List (List Char) :=
  let sfx := (["TI", "TII", "N", "NI", "F", "FI", "S", "SI"]).map String.toList
  let v1 := (sfx.filter (fun s => s.isSuffixOf word && decide (s.length < word.length))).map
    (fun s => word.take (word.length - s.length))
  let v2 := if ("KEE".toList).isSuffixOf word then [word.take (word.length - 3)] else []
  let v3 := if ("SAA".toList).isSuffixOf word then [word.take (word.length - 3)] else []
  let v4 := if ("SA".toList).isSuffixOf word then [word.take (word.length - 2)] else []
  v1 ++ v2 ++ v3 ++ v4

/-- `StopWords.is_stopword`: exact upper-cased membership, then (when
    `check_variants`) membership of any stripped variant. -/
def isStopword (checkVariants : Bool) (word : List Char) : Bool :=
  if word = [] then false
  else
    let w := word.map pyToUpper
    stopwordsAll.contains w ||
      (checkVariants && (getVariants w).any (fun v => stopwordsAll.contains v))

/-- `StopWords.remove_stopwords`: keep the tokens that are not stopwords,
    in order. -/
def removeStopwords (checkVariants : Bool) (words : List (List Char)) : List (List Char) :=
  words.filter (fun w => !isStopword checkVariants w)

/-! POS tagsets (pos/tagsets.py). -/

/-- Universal column of `POS_TAGSET` (the tagger only reads the
    `universal` field, through `get_universal_tag`). -/
def POS_UNIVERSAL : List (String × String) :=
  [("NN", "NOUN"), ("NNC", "NOUN"), ("NNM", "NOUN"), ("NPROP", "NOUN"), ("NPL", "NOUN"),
   ("PPER", "PRON"), ("PDEM", "PRON"), ("PINT", "PRON"), ("PREL", "PRON"),
   ("POSS", "PRON"), ("PREFL", "PRON"),
   ("VB", "VERB"), ("VBF", "VERB"), ("VBINF", "VERB"), ("VBIMP", "VERB"),
   ("VBPART", "VERB"), ("VBCAUS", "VERB"), ("VBPASS", "VERB"), ("VBREFL", "VERB"),
   ("VBAUX", "VERB"),
   ("JJ", "ADJ"), ("JJC", "ADJ"), ("JJS", "ADJ"), ("JJNUM", "ADJ"), ("JJPOSS", "ADJ"),
   ("RB", "ADV"), ("RBC", "ADV"), ("RBS", "ADV"), ("RBINT", "ADV"), ("RBNEG", "ADV"),
   ("DT", "DET"), ("DTDEM", "DET"), ("DTINT", "DET"), ("DTPOSS", "DET"), ("DTIND", "DET"),
   ("IN", "ADP"), ("POST", "ADP"),
   ("CC", "CONJ"), ("CS", "CONJ"),
   ("RP", "PRT"), ("NEG", "PRT"), ("FOC", "PRT"), ("Q", "PRT"),
   ("UH", "INTJ"),
   ("CD", "NUM"), ("OD", "NUM"),
   ("FW", "X"), ("SYM", "X"), ("LS", "X"),
   (".", "PUNC"), (",", "PUNC"), (":", "PUNC"), (";", "PUNC"),
   ("``", "PUNC"), ("''", "PUNC"), ("(", "PUNC"), (")", "PUNC")]

/-- `map_to_universal`: universal tag of an Afaan Oromoo tag, with
    fallback to X. -/
def mapToUniversal (tag : String) : String :=
  match POS_UNIVERSAL.lookup tag with
  | some u => u
  | none => "X"

/-- `VERB_SUFFIXES` of tagsets.py, in dict insertion order. -/
def VERB_SUFFIXES : List (List Char × String) :=
  [("uu".toList, "VBINF"), ("aa".toList, "VBF"), ("ee".toList, "VBF"),
   ("i".toList, "VBIMP"), ("u".toList, "VBPART"), ("si".toList, "VBCAUS"),
   ("am".toList, "VBPASS"), ("at".toList, "VBREFL")]

/-- `NOUN_SUFFIXES` of tagsets.py, in dict insertion order. -/
def NOUN_SUFFIXES : List (List Char × String) :=
  [("ii".toList, "NPL"), ("ww".toList, "NPL"), ("aa".toList, "NN"),
   ("oo".toList, "NN"), ("uu".toList, "NN")]

/-! POS tagger (pos/tagger.py, class QubeePOSTagger). -/

/-- Lexicon override table `LEXICON` of tagger.py. -/
def LEXICON : List (List Char × String) :=
  [("guddaa".toList, "ADJ"), ("xixiqqoo".toList, "ADJ"),
   ("waa'ee".toList, "NOUN"), ("afaan".toList, "NOUN"), ("biyya".toList, "NOUN"),
   ("ani".toList, "PRON"), ("isin".toList, "PRON")]

/-- Preposition set `PREPOSITIONS` of tagger.py. -/
def PREPOSITIONS : List (List Char) :=
  (["fi", "yookiin", "gara", "jalatti", "bira", "keessa", "alaa",
    "wajjin", "malee", "waa'ee"]).map String.toList

/-- Two-word conjunction set of step 4 of `_tag_token`. -/
def CONJUNCTION_WORDS : List (List Char) :=
  (["fi", "yookiin"]).map String.toList

/-- Spelled-out number words of step 1 of `_tag_token`. -/
def numberWords : List (List Char) :=
  (["tokko", "lama", "sadi", "afur", "shan", "jahaa",
    "torba", "saddeet", "sagal", "kudha"]).map String.toList

/-- Split a character list at every occurrence of a separator character
    (Python `str.split(sep)` semantics: n separators yield n+1 parts,
    empty parts included). -/
def splitOnChar (sep : Char) : List Char → List (List Char)
  | [] => [[]]
  | c :: r =>
    let ps := splitOnChar sep r
    if c = sep then [] :: ps
    else
      match ps with
      | [] => [[c]]
      | p :: ps2 => (c :: p) :: ps2

/-- ASCII digit test (`\d` on the tokens the modelled pipeline builds). -/
def hasDigit (s : List Char) : Bool := s.any (fun c => isDigitChar c)

/-- Test for `re.fullmatch(r"\d+(\.\d+)?", w)`. -/
def isDecimalNumber (w : List Char) : Bool :=
  match splitOnChar '.' w with
  | [a] => !a.isEmpty && a.all (fun c => isDigitChar c)
  | [a, b] => !a.isEmpty && a.all (fun c => isDigitChar c) &&
      !b.isEmpty && b.all (fun c => isDigitChar c)
  | _ => false

/-- Membership in `string.punctuation.replace("'", "")`: the ASCII
    punctuation block minus the apostrophe. -/
def isPunctNoApos (c : Char) : Bool :=
  let n := c.toNat
  (33 ≤ n && n ≤ 47 && n ≠ 39) || (58 ≤ n && n ≤ 64) ||
    (91 ≤ n && n ≤ 96) || (123 ≤ n && n ≤ 126)

/-- ASCII letter test (`[a-zA-Z]`). -/
def isAsciiLetter (c : Char) : Bool :=
  let n := c.toNat
  (65 ≤ n && n ≤ 90) || (97 ≤ n && n ≤ 122)

/-- `QubeePOSTagger._tag_token`: the ordered rule cascade of tagger.py. -/
def tagToken (token : List Char) : String :=
  let t := pyStrip token
  if t.isEmpty then "UNK"
  else
    let w := t.map pyToLower
    match LEXICON.lookup w with
    | some tag => tag
    | none =>
      if numberWords.contains w || isDecimalNumber w then "NUM"
      else if w.all isPunctNoApos then "PUNC"
      else if PREPOSITIONS.contains w then "ADP"
      else if CONJUNCTION_WORDS.contains w then "CONJ"
      else
        match VERB_SUFFIXES.find? (fun p => p.1.isSuffixOf w) with
        | some p => mapToUniversal p.2
        | none =>
          match NOUN_SUFFIXES.find? (fun p => p.1.isSuffixOf w) with
          | some p => mapToUniversal p.2
          | none =>
            if !w.isEmpty && w.all (fun c => isAsciiLetter c || c = '\'' || c = '-') then
              if w.contains '-' || w.contains '\'' then "NOUN"
              else if ("aa".toList).isSuffixOf w || ("oo".toList).isSuffixOf w ||
                  ("uu".toList).isSuffixOf w then "ADJ"
              else "UNK"
            else "X"

/-- The stripped, lower-cased token examined by the rule cascade
    (`t_lower` in `_tag_token`). -/
def tagWord (token : List Char) : List Char := (pyStrip token).map pyToLower

/-- `QubeePOSTagger.tag`: one tag per token (the source's early return
    for an empty token list coincides with mapping over it). -/
def tag (tokens : List (List Char)) : List String :=
  tokens.map tagToken

/-! Word tokenizer (tokenizer.py, class QubeeTokenizer).  The word
    pattern is the regex `[A-Za-zÀ-ÖØ-öø-ÿ]+(?:['-][A-Za-zÀ-ÖØ-öø-ÿ]+)*`;
    its greedy leftmost matching is realised by a left-to-right scanner. -/

/-- Membership in the regex letter class `[A-Za-zÀ-ÖØ-öø-ÿ]`. -/
def isTokLetter (c : Char) : Bool :=
  let n := c.toNat
  (65 ≤ n && n ≤ 90) || (97 ≤ n && n ≤ 122) ||
    (0xC0 ≤ n && n ≤ 0xD6) || (0xD8 ≤ n && n ≤ 0xF6) || (0xF8 ≤ n && n ≤ 0xFF)

/-- Internal joiner characters of the word pattern: apostrophe (39) and
    hyphen (45). -/
def isTokSep (c : Char) : Bool := c.toNat = 39 || c.toNat = 45

/-- Consume a maximal run of letters. -/
def takeLetters (s : List Char) : List Char × List Char :=
  (s.takeWhile isTokLetter, s.dropWhile isTokLetter)

/-- Consume the `(?:['-][letters]+)*` continuation of a token: a joiner
    is consumed only when a letter follows it.  Fuel bounds the number of
    joiner groups; the input length always suffices. -/
def munchExt : Nat → List Char → List Char × List Char
  | 0, s => ([], s)
  | f+1, s =>
    match s with
    | [] => ([], [])
    | [c] => ([], [c])
    | c :: c2 :: rest =>
      if isTokSep c && isTokLetter c2 then
        let p := takeLetters (c2 :: rest)
        let q := munchExt f p.2
        (c :: (p.1 ++ q.1), q.2)
      else ([], c :: c2 :: rest)

/-- Scanner for all matches of the word pattern with their start
    offsets (shared by `findall` and `finditer` on `_word_pattern`). -/
def scanTokens : Nat → Nat → List Char → List (Nat × List Char)
  | 0, _, _ => []
  | f+1, pos, s =>
    match s with
    | [] => []
    | c :: r =>
      if isTokLetter c then
        let p := takeLetters (c :: r)
        let q := munchExt p.2.length p.2
        let tok := p.1 ++ q.1
        (pos, tok) :: scanTokens f (pos + tok.length) q.2
      else scanTokens f (pos + 1) r

/-- All word-pattern matches of a text, with start offsets. -/
def findTokens (s : List Char) : List (Nat × List Char) := scanTokens s.length 0 s

/-- Specification predicate for scanned spans: starting at or after a
    lower bound, each token is non-empty, is the slice of the original
    text at its offsets, ends within the text, and the next span starts
    at or after this one's end. -/
def spansOK (T : List Char) : Nat → List (Nat × List Char) → Prop
  | _, [] => True
  | lo, p :: rest =>
    lo ≤ p.1 ∧ p.2 ≠ [] ∧ (T.drop p.1).take p.2.length = p.2 ∧
      p.1 + p.2.length ≤ T.length ∧ spansOK T (p.1 + p.2.length) rest

/-- Combining acute accent U+0301. -/
def combiningAcute : Char := Char.ofNat 0x301

/-- Canonical decomposition table (`unicodedata.normalize("NFD", ...)`)
    for the accented vowels of the modelled repertoire. -/
def NFD_MAP : List (Char × List Char) :=
  [('Á', ['A', combiningAcute]), ('É', ['E', combiningAcute]),
   ('Í', ['I', combiningAcute]), ('Ó', ['O', combiningAcute]),
   ('Ú', ['U', combiningAcute]),
   ('á', ['a', combiningAcute]), ('é', ['e', combiningAcute]),
   ('í', ['i', combiningAcute]), ('ó', ['o', combiningAcute]),
   ('ú', ['u', combiningAcute])]

/-- NFD of one character. -/
def nfdChar (c : Char) : List Char :=
  match NFD_MAP.lookup c with
  | some l => l
  | none => [c]

/-- `QubeeTokenizer._strip_diacritics`: NFD, then keep a character
    unless it is a combining mark outside "aeiouAEIOU". -/
def stripDiacriticsTok (s : List Char) : List Char :=
  (s.flatMap nfdChar).filter
    (fun c => !isCombiningMark c || ("aeiouAEIOU".toList).contains c)

/-- `QubeeTokenizer._normalize_token`. -/
def normalizeToken (preserveCase : Bool) (t : List Char) : List Char :=
  let t2 := stripDiacriticsTok t
  if preserveCase then t2 else t2.map pyToUpper

/-- `QubeeTokenizer.tokenize` (ValueError modelled as Except.error). -/
def tokenize (strict preserveCase : Bool) (text : List Char) :
    Except String (List (List Char)) :=
  if (pyStrip text).isEmpty then .ok []
  else if strict && hasDigit text then .error "Digits are not allowed in strict mode"
  else
    let toks := findTokens text
    if strict && toks.isEmpty then .error "No valid tokens found"
    else if strict && toks.any (fun t => hasDigit t.2) then
      .error "Invalid token in strict mode"
    else .ok (toks.map (fun t => normalizeToken preserveCase t.2))

/-- `QubeeTokenizer.tokenize_with_positions`: records are modelled as
    (start, end, normalised token) triples; the `length` field of the
    source dict is `end - start`. -/
def tokenizeWithPositions (strict preserveCase : Bool) (text : List Char) :
    Except String (List (Nat × Nat × List Char)) :=
  if strict && hasDigit text then .error "Digits are not allowed in strict mode"
  else
    let toks := findTokens text
    if strict && toks.any (fun t => hasDigit t.2) then
      .error "Invalid token in strict mode"
    else .ok (toks.map (fun t => (t.1, t.1 + t.2.length, normalizeToken preserveCase t.2)))

/-! Sentence tokenizer (tokenizer.py, `sentence_tokenize`). -/

/-- Protected abbreviations `QubeeTokenizer._abbreviations` (a Python
    set; one fixed iteration order is used here — the five replacements
    are independent of each other, see the occurrence lemmas below). -/
def ABBREVIATIONS : List (List Char) :=
  (["DR.", "PROF.", "MR.", "MRS.", "MS."]).map String.toList

/-- Python `str.replace(pat, repl)` (all non-overlapping occurrences,
    left to right), with fuel; fuel = input length suffices for the
    non-empty patterns used here. -/
def replaceAllFuel (pat repl : List Char) : Nat → List Char → List Char
  | 0, s => s
  | f+1, s =>
    match s with
    | [] => []
    | c :: r =>
      if !pat.isEmpty && pat.isPrefixOf (c :: r) then
        repl ++ replaceAllFuel pat repl f ((c :: r).drop pat.length)
      else c :: replaceAllFuel pat repl f r

/-- Python `str.replace(pat, repl)` for a non-empty pattern. -/
def replaceStr (pat repl s : List Char) : List Char :=
  replaceAllFuel pat repl s.length s

/-- Sentinel substitution `abbr.replace(".", "<DOT>")`. -/
def sentinelize (a : List Char) : List Char :=
  a.flatMap (fun c => if c = '.' then ("<DOT>".toList) else [c])

/-- Abbreviation protection pass of `sentence_tokenize`. -/
def protectAbbrs (s : List Char) : List Char :=
  ABBREVIATIONS.foldl (fun t a => replaceStr a (sentinelize a) t) s

/-- Sentence-final punctuation of the split pattern `(?<=[.!?])\s+`. -/
def isTermChar (c : Char) : Bool := c = '.' || c = '!' || c = '?'

mutual

/-- Scanner for `re.split(r"(?<=[.!?])\s+", s)`: accumulate the current
    part (reversed); a whitespace character directly after a terminator
    ends the part and starts separator-skipping. -/
def sentSplitGo : List Char → Char → List Char → List (List Char)
  | [], _, acc => [acc.reverse]
  | c :: r, prev, acc =>
    if isWsChar c && isTermChar prev then acc.reverse :: sentSplitSkip r
    else sentSplitGo r c (c :: acc)

/-- Skip the rest of a `\s+` separator run. -/
def sentSplitSkip : List Char → List (List Char)
  | [] => [[]]
  | c :: r => if isWsChar c then sentSplitSkip r else sentSplitGo r c [c]

end

/-- `re.split(r"(?<=[.!?])\s+", s)`. -/
def sentSplit (s : List Char) : List (List Char) :=
  sentSplitGo s (Char.ofNat 0) []

/-- Sentinel restoration `p.replace("<DOT>", ".")`. -/
def restoreDots (p : List Char) : List Char :=
  replaceStr ("<DOT>".toList) ['.'] p

/-- `QubeeTokenizer.sentence_tokenize`. -/
def sentenceTokenize (strict preserveCase : Bool) (text : List Char) :
    Except String (List (List Char)) :=
  if (pyStrip text).isEmpty then .ok []
  else if strict && hasDigit text then .error "Digits are not allowed in strict mode"
  else
    let processed0 := stripDiacriticsTok text
    let processed := if preserveCase then processed0 else processed0.map pyToUpper
    let prot := protectAbbrs processed
    let parts := sentSplit prot
    .ok ((parts.map (fun p => pyStrip (restoreDots p))).filter (fun p => !p.isEmpty))

/-! Syllabifier (syllabifier.py, class Syllabifier). -/

/-- Consonant letters `QubeeAlphabet.CONSONANTS`. -/
def CONSONANTS : List Char :=
  ['B', 'C', 'D', 'F', 'G', 'H', 'J', 'K', 'L', 'M',
   'N', 'P', 'Q', 'R', 'S', 'T', 'V', 'W', 'X', 'Y', 'Z']

/-- Vowel letters `QubeeAlphabet.VOWELS`. -/
def VOWELS : List Char := ['A', 'E', 'I', 'O', 'U']

/-- `QubeeAlphabet.is_consonant` (case-insensitive). -/
def isConsonantChar (c : Char) : Bool := CONSONANTS.contains (pyToUpper c)

/-- `QubeeAlphabet.is_vowel` (case-insensitive). -/
def isVowelChar (c : Char) : Bool := VOWELS.contains (pyToUpper c)

/-- Membership of a two-character sequence in the syllabifier's
    lower-case digraph set {ch, dh, ny, ph, sh}. -/
def sylDigraph (a b : Char) : Bool :=
  (a = 'c' && b = 'h') || (a = 'd' && b = 'h') || (a = 'n' && b = 'y') ||
    (a = 'p' && b = 'h') || (a = 's' && b = 'h')

/-- `Syllabifier._normalize_word` per character: NFKD, drop non-ASCII,
    lower-case.  On the modelled repertoire an accented vowel contributes
    its lower-cased base letter, any other non-ASCII character (including
    a combining mark) is dropped, and an ASCII character is lower-cased. -/
def foldAsciiLower (c : Char) : Option Char :=
  if c.toNat ≤ 127 then some (pyToLower c)
  else
    match NFD_MAP.lookup c with
    | some l =>
      match l with
      | b :: _ => some (pyToLower b)
      | [] => none
    | none => none

/-- `Syllabifier._normalize_word`. -/
def normWordSyl (w : List Char) : List Char := w.filterMap foldAsciiLower

/-- Character class of `re.fullmatch(r"[a-zA-Z'-]+", word)`. -/
def sylValidChar (c : Char) : Bool := isAsciiLetter c || c = '\'' || c = '-'

/-- ASCII lower-case letter test (`[a-z]`). -/
def isLowerLetter (c : Char) : Bool := 97 ≤ c.toNat && c.toNat ≤ 122

/-- Onset phase of the parse loop: consume consonants, two at a time
    when they form a digraph. -/
def takeOnset : List Char → List Char × List Char
  | [] => ([], [])
  | [c] => if isConsonantChar c then ([c], []) else ([], [c])
  | c1 :: c2 :: rest =>
    if isConsonantChar c1 then
      if sylDigraph c1 c2 then
        let p := takeOnset rest
        (c1 :: c2 :: p.1, p.2)
      else
        let p := takeOnset (c2 :: rest)
        (c1 :: p.1, p.2)
    else ([], c1 :: c2 :: rest)

/-- Coda phase: a single consonant is attached only when it is the last
    character or is followed by a consonant not forming a digraph with it. -/
def takeCoda : List Char → List Char × List Char
  | [] => ([], [])
  | [c] => if isConsonantChar c then ([c], []) else ([], [c])
  | c1 :: c2 :: rest =>
    if isConsonantChar c1 && (isConsonantChar c2 && !sylDigraph c1 c2) then
      ([c1], c2 :: rest)
    else ([], c1 :: c2 :: rest)

/-- The onset–nucleus–coda while-loop of `Syllabifier.syllabify`:
    returns the collected syllables and the unconsumed rest at the break
    position (which in the source is the index reached after the onset
    of the failed iteration).  Fuel = word length suffices because every
    appended syllable contains a non-empty nucleus. -/
def sylLoop : Nat → List Char → List (List Char) × List Char
  | 0, s => ([], s)
  | f+1, s =>
    let o := takeOnset s
    let nuc := o.2.takeWhile isVowelChar
    let r2 := o.2.dropWhile isVowelChar
    if nuc.isEmpty then ([], o.2)
    else
      let cd := takeCoda r2
      let rest := sylLoop f cd.2
      ((o.1 ++ nuc ++ cd.1) :: rest.1, rest.2)

/-- Append the leftover span to the last produced syllable
    (`syllables[-1] += word[i:]`). -/
def attachLast (extra : List Char) : List (List Char) → List (List Char)
  | [] => []
  | [x] => [x ++ extra]
  | x :: xs => x :: attachLast extra xs

/-- Separator-free body of `Syllabifier.syllabify`: parse loop, leftover
    attachment, reconstruction check (Fix 4) and consonant-only
    fallback, exactly in the source's order. -/
def sylCore (p : List Char) : List (List Char) :=
  let lp := sylLoop p.length p
  let syls :=
    if lp.2.isEmpty then lp.1
    else
      match lp.1 with
      | [] => [lp.2]
      | _ => attachLast lp.2 lp.1
  if syls.flatten ≠ p then [p]
  else if syls.isEmpty then [p]
  else syls

/-- `Syllabifier.syllabify` with explicit fuel for the recursion on
    separator parts; the recursion depth is at most three (word, then
    apostrophe parts, then hyphen parts), so fuel `length + 1` always
    suffices. -/
def syllabifyAux (strict : Bool) : Nat → List Char → List (List Char)
  | 0, _ => []
  | f+1, w =>
    if (pyStrip w).isEmpty then []
    else
      let word := normWordSyl w
      if hasDigit word then []
      else if !(!word.isEmpty && word.all sylValidChar) then []
      else if strict &&
          !(!word.isEmpty && word.all (fun c => isLowerLetter c || c = '\'' || c = '-')) then []
      else if word.contains '\'' then
        ((splitOnChar '\'' word).map (syllabifyAux strict f)).flatten
      else if word.contains '-' then
        ((splitOnChar '-' word).map (syllabifyAux strict f)).flatten
      else sylCore word

/-- `Syllabifier.syllabify`. -/
def syllabify (strict : Bool) (w : List Char) : List (List Char) :=
  syllabifyAux strict (w.length + 1) w

/-! Normalizer (normalizer.py, class TextNormalizer). -/

/-- Canonical composition table (`unicodedata.normalize("NFC", ...)`)
    for the modelled repertoire: base vowel + combining acute. -/
def NFC_PAIRS : List ((Char × Char) × Char) :=
  [(('A', combiningAcute), 'Á'), (('E', combiningAcute), 'É'),
   (('I', combiningAcute), 'Í'), (('O', combiningAcute), 'Ó'),
   (('U', combiningAcute), 'Ú'),
   (('a', combiningAcute), 'á'), (('e', combiningAcute), 'é'),
   (('i', combiningAcute), 'í'), (('o', combiningAcute), 'ó'),
   (('u', combiningAcute), 'ú')]

/-- Compose one starter/mark pair, when composable. -/
def composePair (a b : Char) : Option Char := NFC_PAIRS.lookup (a, b)

/-- NFC scan with fuel (input length suffices: each step either composes,
    shortening the list, or emits one character). -/
def nfcGo : Nat → List Char → List Char
  | 0, s => s
  | f+1, s =>
    match s with
    | [] => []
    | [c] => [c]
    | c1 :: c2 :: rest =>
      match composePair c1 c2 with
      | some d => nfcGo f (d :: rest)
      | none => c1 :: nfcGo f (c2 :: rest)

/-- `unicodedata.normalize("NFC", s)` on the modelled repertoire. -/
def nfc (s : List Char) : List Char := nfcGo s.length s

/-- Zero-width characters of `TextNormalizer._zero_width_re`. -/
def isZeroWidth (c : Char) : Bool :=
  c.toNat = 0x200B || c.toNat = 0x200C || c.toNat = 0x200D

/-- Punctuation standardisation table `TextNormalizer._punct_map`, in
    source order. -/
def PUNCT_MAP : List (Char × List Char) :=
  [('’', ['\'']), ('‘', ['\'']), ('“', ['"']), ('”', ['"']),
   ('–', ['-']), ('—', ['-']), ('…', ['.', '.', '.'])]

/-- One `t.replace(k, v)` pass for a single-character pattern. -/
def replaceChar (k : Char) (v : List Char) (s : List Char) : List Char :=
  s.flatMap (fun c => if c = k then v else [c])

/-- `TextNormalizer._strip_diacritics`: NFD then drop all combining
    marks. -/
def stripDiaNorm (s : List Char) : List Char :=
  (s.flatMap nfdChar).filter (fun c => !isCombiningMark c)

/-- Punctuation removed by step 7 (`[.,!?;:]`). -/
def isPunctNorm (c : Char) : Bool :=
  ['.', ',', '!', '?', ';', ':'].contains c

/-- Word characters of `\w` on the modelled repertoire: ASCII letters,
    digits, underscore and the modelled accented letters. -/
def isWordChar (c : Char) : Bool :=
  isAsciiLetter c || isDigitChar c || c = '_' ||
    (['Á', 'É', 'Í', 'Ó', 'Ú', 'á', 'é', 'í', 'ó', 'ú']).contains c

/-- Whitespace collapse `re.sub(r"\s+", " ", t)`. -/
def collapseGo : Bool → List Char → List Char
  | _, [] => []
  | prevWs, c :: r =>
    if isWsChar c then
      if prevWs then collapseGo true r else ' ' :: collapseGo true r
    else c :: collapseGo false r

/-- Whitespace collapse (each maximal whitespace run becomes one space). -/
def collapseWs (s : List Char) : List Char := collapseGo false s

/-- Configuration bundle of `TextNormalizer.__init__`. -/
structure NormConfig where
  normalizeCase : Bool
  preserveCase : Bool
  removeDiacritics : Bool
  removeNumbers : Bool
  removePunctuation : Bool
  removeSpecialChars : Bool
  standardizePunctuation : Bool
  removeExtraSpaces : Bool

/-- Default keyword arguments of `TextNormalizer.__init__`. -/
def defaultConfig : NormConfig :=
  NormConfig.mk true false false false false false true true

/-- Default configuration with `remove_numbers=True`. -/
def removeNumbersConfig : NormConfig :=
  NormConfig.mk true false false true false false true true

/-- `TextNormalizer.normalize`: the ten ordered steps of the source. -/
def normalize (cfg : NormConfig) (t : List Char) : List Char :=
  if t.isEmpty then []
  else
    let t1 := nfc t
    let t2 := t1.map (fun c => if isZeroWidth c then ' ' else c)
    let t3 :=
      if cfg.standardizePunctuation then
        PUNCT_MAP.foldl (fun s kv => replaceChar kv.1 kv.2 s) t2
      else t2
    let t4 := t3.map diaFold
    let t5 := if cfg.removeDiacritics then stripDiaNorm t4 else t4
    let t6 := if cfg.removeNumbers then t5.filter (fun c => !isDigitChar c) else t5
    let t7 := if cfg.removePunctuation then t6.filter (fun c => !isPunctNorm c) else t6
    let t8 :=
      if cfg.removeSpecialChars then
        (t7.map (fun c => if c = '-' then ' ' else c)).filter
          (fun c => isWordChar c || isWsChar c || c = '\'')
      else t7
    let t9 := if cfg.normalizeCase && !cfg.preserveCase then t8.map pyToUpper else t8
    if cfg.removeExtraSpaces then pyStrip (collapseWs t9) else t9

/-- Invariant satisfied by every character of a normalizer output (for
    inputs without combining marks): each configured cleaning step has
    nothing left to do on it. -/
def okC4 (cfg : NormConfig) (c : Char) : Prop :=
  isCombiningMark c = false ∧
  isZeroWidth c = false ∧
  (cfg.standardizePunctuation = true → c ∉ PUNCT_MAP.map Prod.fst) ∧
  diaFold c = c ∧
  (cfg.removeNumbers = true → isDigitChar c = false) ∧
  (cfg.removePunctuation = true → isPunctNorm c = false) ∧
  (cfg.removeSpecialChars = true →
    c ≠ '-' ∧ (isWordChar c || isWsChar c || c = '\'') = true) ∧
  ((cfg.normalizeCase && !cfg.preserveCase) = true → pyToUpper c = c)

/-! General helper lemmas. -/

/-- Association-list lookup returns one of the stored values. -/
theorem lookup_mem_values {α β : Type} [BEq α] (l : List (α × β)) (a : α) (b : β)
    (h : l.lookup a = some b) : b ∈ l.map Prod.snd := by
  induction l with
  | nil => simp [List.lookup] at h
  | cons e es ih =>
    rw [List.lookup] at h
    by_cases hk : (a == e.1) = true
    · rw [hk] at h
      simp at h
      simp [← h]
    · rw [Bool.not_eq_true] at hk
      rw [hk] at h
      simp [ih h]

/-! Claim C9: stopword removal never returns a stopword and preserves
    the relative order of the input tokens. -/

/-- C9: for every token list and variant-checking flag, removeStopwords
    returns no token that isStopword (with the same flag) accepts, and
    the returned tokens form an order-preserving sublist of the input. -/
theorem c9_stopword_symmetry (checkVariants : Bool) (words : List (List Char)) :
    (∀ w ∈ removeStopwords checkVariants words, isStopword checkVariants w = false) ∧
    (removeStopwords checkVariants words).Sublist words := by
  constructor
  · intro w hw
    have h := List.of_mem_filter hw
    simpa using h
  · exact List.filter_sublist _

/-- Witness for C9 at a concrete token list. -/
theorem c9_witness :
    isStopword true ("LAFA".toList) = false ∧
    (removeStopwords true [("ANI".toList), ("LAFA".toList)]).Sublist
      [("ANI".toList), ("LAFA".toList)] :=
  ⟨(c9_stopword_symmetry true [("ANI".toList), ("LAFA".toList)]).1 ("LAFA".toList) (by decide),
   (c9_stopword_symmetry true [("ANI".toList), ("LAFA".toList)]).2⟩

/-! Claim C8: the stemmer's irregular-form table short-circuits suffix
    stripping. -/

/-- C8: whenever the upper-cased, diacritic-folded form of a word is in
    the irregular table, stem returns the table's root without any
    suffix stripping; in particular stem("dhufan") = "DHUF". -/
theorem c8_irregular_short_circuit :
    (∀ (w root : List Char), irregularForms.lookup (stemNormalize w) = some root →
      stem w = root) ∧
    stem ("dhufan".toList) = "DHUF".toList := by
  constructor
  · intro w root h
    simp only [stem]
    rw [h]
  · decide

/-- Witness for C8 at the spec's concrete input. -/
theorem c8_witness :
    irregularForms.lookup (stemNormalize ("dhufan".toList)) = some ("DHUF".toList) ∧
    stem ("dhufan".toList) = "DHUF".toList :=
  ⟨by decide, c8_irregular_short_circuit.1 ("dhufan".toList) ("DHUF".toList) (by decide)⟩

/-! Claim C10: the tagger's conjunction rule is unreachable, since both
    conjunction words are also prepositions and the adposition rule is
    tested first. -/

/-- Both words of the conjunction list are in the preposition set. -/
theorem conj_subset_preps (w : List Char) (h : CONJUNCTION_WORDS.contains w = true) :
    PREPOSITIONS.contains w = true := by
  have hm : w ∈ CONJUNCTION_WORDS := by
    simpa using h
  simp only [CONJUNCTION_WORDS, List.map_cons, List.map_nil, List.mem_cons,
    List.not_mem_nil, or_false] at hm
  rcases hm with h1 | h1 <;> subst h1 <;> decide

/-- No single token is ever tagged CONJ. -/
theorem tagToken_ne_conjunction (t : List Char) : tagToken t ≠ "CONJ" := by
  simp only [tagToken]
  split
  · decide
  · split
    · rename_i tagv hlex
      have hv := lookup_mem_values _ _ _ hlex
      simp only [LEXICON, List.map_cons, List.map_nil, List.mem_cons,
        List.not_mem_nil, or_false] at hv
      rcases hv with h | h | h | h | h | h | h <;> subst h <;> decide
    · split
      · decide
      · split
        · decide
        · split
          · decide
          · split
            · rename_i hprep hconj
              exact absurd (conj_subset_preps _ hconj) (by simpa using hprep)
            · split
              · rename_i p hfind
                have hmem := List.mem_of_find?_eq_some hfind
                simp only [VERB_SUFFIXES, List.mem_cons, List.not_mem_nil, or_false] at hmem
                rcases hmem with h | h | h | h | h | h | h | h <;> subst h <;> decide
              · split
                · rename_i p hfind
                  have hmem := List.mem_of_find?_eq_some hfind
                  simp only [NOUN_SUFFIXES, List.mem_cons, List.not_mem_nil, or_false] at hmem
                  rcases hmem with h | h | h | h | h <;> subst h <;> decide
                · split
                  · split
                    · decide
                    · split
                      · decide
                      · decide
                  · decide

/-- C10: the tag operation never returns CONJ for any token: the earlier
    adposition rule always captures both words of the conjunction list. -/
theorem c10_conj_unreachable (tokens : List (List Char)) : "CONJ" ∉ tag tokens := by
  intro h
  unfold tag at h
  rw [List.mem_map] at h
  obtain ⟨t, _, ht⟩ := h
  exact tagToken_ne_conjunction t ht

/-- Witness for C10 at a concrete token list containing both conjunction
    words. -/
theorem c10_witness : "CONJ" ∉ tag [("fi".toList), ("yookiin".toList), ("fiduu".toList)] :=
  c10_conj_unreachable [("fi".toList), ("yookiin".toList), ("fiduu".toList)]

/-! Counterexamples for the corrected claims C1, C3, C4 and C6. -/

/-- C1 counterexample: for the word "a-ba" the syllabifier returns the
    non-empty list ["a", "ba"], whose concatenation "aba" differs from
    the diacritic-folded, lower-cased form "a-ba" of the word — the
    separator is dropped, so the reconstruction invariant as claimed
    fails on words containing hyphens or apostrophes. -/
theorem c1_counterexample :
    syllabify false ("a-ba".toList) = [("a".toList), ("ba".toList)] ∧
    syllabify false ("a-ba".toList) ≠ [] ∧
    (syllabify false ("a-ba".toList)).flatten ≠ normWordSyl ("a-ba".toList) := by
  decide

/-- C3 counterexample: the whitespace-only input " " is strict-mode
    clean (no digit) and yields zero tokens, yet strict tokenize returns
    the empty list instead of failing. -/
theorem c3_counterexample :
    hasDigit (" ".toList) = false ∧
    findTokens (" ".toList) = [] ∧
    tokenize true false (" ".toList) = Except.ok [] :=
  ⟨by decide, by decide, by rfl⟩

/-- C4 counterexample: with remove_numbers enabled, the text
    "a1" followed by a combining acute (U+0301) normalises to
    the letter A followed by the bare combining mark, which a second
    normalisation pass composes to A-acute and then diacritic-folds, so
    normalize is not idempotent. -/
theorem c4_counterexample :
    normalize removeNumbersConfig
        (normalize removeNumbersConfig ['a', '1', Char.ofNat 0x301]) ≠
      normalize removeNumbersConfig ['a', '1', Char.ofNat 0x301] := by
  decide

/-- C6 counterexample: the word "XOTA" ends with both suffixes "OTA" and
    "TA" of the table, of different lengths and each leaving a non-empty
    result, yet stem("XOTA") strips neither — the minimum-length guard
    returns the word unchanged because stripping the longer suffix
    "OTA" would leave the single character "X". -/
theorem c6_counterexample :
    (("OTA".toList, ([] : List Char)) ∈ suffixes ∧
      ("TA".toList, ([] : List Char)) ∈ suffixes) ∧
    (suffixMatches ("XOTA".toList) (("OTA".toList), []) = true ∧
      suffixMatches ("XOTA".toList) (("TA".toList), []) = true) ∧
    stem ("XOTA".toList) = "XOTA".toList ∧
    stem ("XOTA".toList) ≠ "X".toList ∧
    stem ("XOTA".toList) ≠ "XO".toList := by
  decide

/-! Claim C6 (amended): longest-viable-suffix behaviour of the stemmer. -/

/-- Two suffixes of the same word with equal lengths are equal. -/
theorem suffix_eq_of_length_eq {a b w : List Char} (ha : a.isSuffixOf w = true)
    (hb : b.isSuffixOf w = true) (hl : a.length = b.length) : a = b := by
  rw [List.isSuffixOf_iff_suffix] at ha hb
  rw [List.suffix_iff_eq_drop] at ha hb
  rw [ha, hb, hl]

/-- Association-list lookup succeeds only on stored keys. -/
theorem lookup_mem_keys {α β : Type} [BEq α] [LawfulBEq α] (l : List (α × β)) (a : α) (b : β)
    (h : l.lookup a = some b) : a ∈ l.map Prod.fst := by
  induction l with
  | nil => simp [List.lookup] at h
  | cons e es ih =>
    rw [List.lookup] at h
    by_cases hk : (a == e.1) = true
    · simp at hk
      simp [hk]
    · rw [Bool.not_eq_true] at hk
      rw [hk] at h
      simp [ih h]

/-- Membership through the stable insertion step. -/
theorem mem_insertByLen {a x : List Char × List Char} {l : List (List Char × List Char)} :
    a ∈ insertByLen x l ↔ a = x ∨ a ∈ l := by
  induction l with
  | nil => simp [insertByLen]
  | cons b bs ih =>
    rw [insertByLen]
    split
    · rw [List.mem_cons, ih, List.mem_cons]
      tauto
    · rw [List.mem_cons]

/-- The sorted suffix table has the same members as the source table. -/
theorem mem_sortedSuffixes {a : List Char × List Char} :
    a ∈ sortedSuffixes ↔ a ∈ suffixes := by
  have key : ∀ (l : List (List Char × List Char)),
      a ∈ l.foldr insertByLen [] ↔ a ∈ l := by
    intro l
    induction l with
    | nil => simp
    | cons b bs ih =>
      simp only [List.foldr_cons, mem_insertByLen, List.mem_cons, ih]
  exact key suffixes

/-- On a length-sorted, key-distinct table, `find?` returns exactly the
    entry of the longest matching suffix. -/
theorem find?_eq_of_maximal (word : List Char) :
    ∀ (l : List (List Char × List Char)),
      l.Pairwise (fun a b => b.1.length ≤ a.1.length) →
      (l.map Prod.fst).Nodup →
      ∀ s r, (s, r) ∈ l → suffixMatches word (s, r) = true →
      (∀ p ∈ l, suffixMatches word p = true → p.1.length ≤ s.length) →
      l.find? (suffixMatches word) = some (s, r) := by
  intro l
  induction l with
  | nil =>
    intro _ _ s r hmem
    simp at hmem
  | cons x xs ih =>
    intro hsort hnodup s r hmem hp hmax
    by_cases hx : suffixMatches word x = true
    · rw [List.find?_cons_of_pos _ hx]
      rcases List.mem_cons.mp hmem with heq | htail
      · rw [heq]
      · exfalso
        have hle : x.1.length ≤ s.length := hmax x (List.mem_cons_self x xs) hx
        have hge : s.length ≤ x.1.length := (List.pairwise_cons.mp hsort).1 (s, r) htail
        have hxs : x.1 = s := by
          have hsufx : (x.1).isSuffixOf word = true ∧ x.1.length < word.length := by
            simpa [suffixMatches] using hx
          have hsufs : s.isSuffixOf word = true ∧ s.length < word.length := by
            simpa [suffixMatches] using hp
          exact suffix_eq_of_length_eq hsufx.1 hsufs.1 (Nat.le_antisymm hle hge)
        have : s ∈ xs.map Prod.fst := List.mem_map.mpr ⟨(s, r), htail, rfl⟩
        have hns : x.1 ∉ xs.map Prod.fst := by
          have := hnodup
          rw [List.map_cons, List.nodup_cons] at this
          exact this.1
        rw [hxs] at hns
        exact hns this
    · rw [List.find?_cons_of_neg _ hx]
      rcases List.mem_cons.mp hmem with heq | htail
      · exact absurd (heq ▸ hp) hx
      · exact ih ((List.pairwise_cons.mp hsort).2)
          (by rw [List.map_cons, List.nodup_cons] at hnodup; exact hnodup.2)
          s r htail hp
          (fun p hpmem => hmax p (List.mem_cons_of_mem x hpmem))

/-- No irregular-form key matches two table suffixes of different
    lengths, each leaving a non-empty remainder. -/
theorem irregular_no_two_suffixes (k : List Char)
    (hk : k ∈ irregularForms.map Prod.fst)
    (a b : List Char × List Char) (ha : a ∈ suffixes) (hb : b ∈ suffixes)
    (hma : suffixMatches k a = true) (hmb : suffixMatches k b = true)
    (hl : b.1.length < a.1.length) : False := by
  have H : irregularForms.all (fun q => suffixes.all (fun a2 => suffixes.all
      (fun b2 => !(suffixMatches q.1 a2 && suffixMatches q.1 b2 &&
        decide (b2.1.length < a2.1.length))))) = true := by decide
  rw [List.all_eq_true] at H
  obtain ⟨q, hq, rfl⟩ := List.mem_map.mp hk
  have H2 := H q hq
  rw [List.all_eq_true] at H2
  have H3 := H2 a ha
  rw [List.all_eq_true] at H3
  have H4 := H3 b hb
  rw [hma, hmb] at H4
  simp [hl] at H4

/-- Every replacement in the suffix table is empty. -/
theorem suffixes_snd_nil : ∀ p ∈ suffixes, p.2 = ([] : List Char) := by decide

/-- C6 (amended): if a word's normalised form matches two different
    suffixes of the table with different lengths, each leaving a
    non-empty result, and the longer of the two is the longest matching
    viable suffix, then stem strips that longer suffix exactly when the
    remainder keeps at least 2 characters, and otherwise returns the
    normalised word unchanged; the shorter suffix is never the one
    stripped. -/
theorem c6_amended_longest_viable (w s₁ s₂ r₁ r₂ : List Char)
    (hs₁ : (s₁, r₁) ∈ suffixes) (hs₂ : (s₂, r₂) ∈ suffixes)
    (hm₁ : suffixMatches (stemNormalize w) (s₁, r₁) = true)
    (hm₂ : suffixMatches (stemNormalize w) (s₂, r₂) = true)
    (hlen : s₂.length < s₁.length)
    (hmax : ∀ p ∈ suffixes, suffixMatches (stemNormalize w) p = true →
      p.1.length ≤ s₁.length) :
    (2 ≤ (stemNormalize w).length - s₁.length →
      stem w = (stemNormalize w).take ((stemNormalize w).length - s₁.length)) ∧
    ((stemNormalize w).length - s₁.length < 2 → stem w = stemNormalize w) := by
  have hr₁ : r₁ = [] := suffixes_snd_nil (s₁, r₁) hs₁
  subst hr₁
  have hirr : irregularForms.lookup (stemNormalize w) = none := by
    cases h : irregularForms.lookup (stemNormalize w) with
    | none => rfl
    | some root =>
      exact (irregular_no_two_suffixes (stemNormalize w)
        (lookup_mem_keys _ _ _ h) (s₁, []) (s₂, r₂) hs₁ hs₂ hm₁ hm₂ hlen).elim
  have hfind : sortedSuffixes.find? (suffixMatches (stemNormalize w)) = some (s₁, []) := by
    refine find?_eq_of_maximal (stemNormalize w) sortedSuffixes (by decide) (by decide)
      s₁ [] (mem_sortedSuffixes.mpr hs₁) hm₁ ?_
    intro p hp
    exact hmax p (mem_sortedSuffixes.mp hp)
  have hslen : s₁.length < (stemNormalize w).length := by
    have h2 : s₁.isSuffixOf (stemNormalize w) = true ∧ s₁.length < (stemNormalize w).length := by
      simpa [suffixMatches] using hm₁
    exact h2.2
  have htake : ((stemNormalize w).take ((stemNormalize w).length - s₁.length)).length =
      (stemNormalize w).length - s₁.length := by
    rw [List.length_take]
    omega
  constructor
  · intro hge
    simp only [stem]
    rw [hirr, hfind]
    simp only [List.append_nil]
    rw [if_neg (by omega)]
  · intro hlt
    simp only [stem]
    rw [hirr, hfind]
    simp only [List.append_nil]
    rw [if_pos (by omega)]

/-- Witness for C6 (amended) at the word LAFOOTA, which matches the
    suffixes OOTA and TA. -/
theorem c6_witness : stem ("LAFOOTA".toList) = "LAF".toList := by
  have h := (c6_amended_longest_viable ("LAFOOTA".toList) ("OOTA".toList) ("TA".toList) [] []
    (by decide) (by decide) (by decide) (by decide) (by decide) (by decide)).1 (by decide)
  exact h.trans (by decide)

/-! Claim C2: the verb-suffix and noun-suffix rules, observed through the
    universal tag they return. -/

/-- Every verb-suffix tag maps to the universal tag VERB. -/
theorem verb_universal : ∀ p ∈ VERB_SUFFIXES, mapToUniversal p.2 = "VERB" := by decide

/-- Every noun-suffix tag maps to the universal tag NOUN. -/
theorem noun_universal : ∀ p ∈ NOUN_SUFFIXES, mapToUniversal p.2 = "NOUN" := by decide

/-- C2: for every token that reaches the suffix rules, the returned tag
    is the universal tag determined by the longest matching suffix of
    the verb table (respectively, of the noun table when no verb suffix
    matches). -/
theorem c2_suffix_rule_universal (t : List Char)
    (hne : (pyStrip t).isEmpty = false)
    (hlex : LEXICON.lookup (tagWord t) = none)
    (hnum1 : numberWords.contains (tagWord t) = false)
    (hnum2 : isDecimalNumber (tagWord t) = false)
    (hpunc : (tagWord t).all isPunctNoApos = false)
    (hprep : PREPOSITIONS.contains (tagWord t) = false) :
    (∀ s tg, (s, tg) ∈ VERB_SUFFIXES → s.isSuffixOf (tagWord t) = true →
      (∀ p ∈ VERB_SUFFIXES, p.1.isSuffixOf (tagWord t) = true → p.1.length ≤ s.length) →
      tagToken t = mapToUniversal tg) ∧
    (∀ s tg, (s, tg) ∈ NOUN_SUFFIXES → s.isSuffixOf (tagWord t) = true →
      (∀ p ∈ VERB_SUFFIXES, p.1.isSuffixOf (tagWord t) = false) →
      (∀ p ∈ NOUN_SUFFIXES, p.1.isSuffixOf (tagWord t) = true → p.1.length ≤ s.length) →
      tagToken t = mapToUniversal tg) := by
  have conj_false : CONJUNCTION_WORDS.contains (tagWord t) = false := by
    by_cases h : CONJUNCTION_WORDS.contains (tagWord t) = true
    · exact absurd (conj_subset_preps _ h) (by simpa using hprep)
    · simpa using h
  have hnum1m : tagWord t ∉ numberWords := by simpa using hnum1
  have hprepm : tagWord t ∉ PREPOSITIONS := by simpa using hprep
  have hconjm : tagWord t ∉ CONJUNCTION_WORDS := by simpa using conj_false
  have hpuncm : ¬ ∀ x ∈ pyStrip t, isPunctNoApos (pyToLower x) = true := by
    intro hall
    rw [← Bool.not_eq_true] at hpunc
    refine hpunc (List.all_eq_true.mpr ?_)
    intro x hx
    rw [tagWord, List.mem_map] at hx
    obtain ⟨y, hy, rfl⟩ := hx
    exact hall y hy
  simp only [tagWord] at hnum1m hprepm hconjm hnum2
  constructor
  · intro s tg hmem hsuf _hmax
    cases hfind : VERB_SUFFIXES.find? (fun p => p.1.isSuffixOf (tagWord t)) with
    | none =>
      rw [List.find?_eq_none] at hfind
      exact absurd hsuf (by simpa using hfind (s, tg) hmem)
    | some p2 =>
      have hp2 := List.mem_of_find?_eq_some hfind
      have h1 : mapToUniversal p2.2 = "VERB" := verb_universal p2 hp2
      have h2 : mapToUniversal tg = "VERB" := verb_universal (s, tg) hmem
      rw [h2, ← h1]
      simp only [tagWord] at hlex hfind
      simp [tagToken, hne, hlex, hnum1m, hnum2, hpuncm, hprepm, hconjm, hfind]
  · intro s tg hmem hsuf hverb _hmax
    have hvfind : VERB_SUFFIXES.find? (fun p => p.1.isSuffixOf (tagWord t)) = none := by
      rw [List.find?_eq_none]
      intro p hp
      simp [hverb p hp]
    cases hfind : NOUN_SUFFIXES.find? (fun p => p.1.isSuffixOf (tagWord t)) with
    | none =>
      rw [List.find?_eq_none] at hfind
      exact absurd hsuf (by simpa using hfind (s, tg) hmem)
    | some p2 =>
      have hp2 := List.mem_of_find?_eq_some hfind
      have h1 : mapToUniversal p2.2 = "NOUN" := noun_universal p2 hp2
      have h2 : mapToUniversal tg = "NOUN" := noun_universal (s, tg) hmem
      rw [h2, ← h1]
      simp only [tagWord] at hlex hvfind hfind
      simp [tagToken, hne, hlex, hnum1m, hnum2, hpuncm, hprepm, hconjm, hvfind, hfind]

/-- Witness for C2: the token "xsi" matches the verb suffixes "i" and
    "si"; the longest, "si", determines the returned tag VERB.  The
    token "xww" matches no verb suffix and the noun suffix "ww", which
    determines the returned tag NOUN. -/
theorem c2_witness :
    tagToken ("xsi".toList) = mapToUniversal "VBCAUS" ∧
    tagToken ("xww".toList) = mapToUniversal "NPL" :=
  ⟨(c2_suffix_rule_universal ("xsi".toList) (by decide) (by decide) (by decide)
      (by decide) (by decide) (by decide)).1 ("si".toList) "VBCAUS"
      (by decide) (by decide) (by decide),
   (c2_suffix_rule_universal ("xww".toList) (by decide) (by decide) (by decide)
      (by decide) (by decide) (by decide)).2 ("ww".toList) "NPL"
      (by decide) (by decide) (by decide) (by decide)⟩

/-! Claim C3 (amended): strict-mode failure conditions of the tokenizer. -/

/-- trimRight returns the empty list exactly on all-whitespace input. -/
theorem trimRight_eq_nil_iff {s : List Char} :
    trimRight s = [] ↔ ∀ c ∈ s, isWsChar c = true := by
  induction s with
  | nil => simp [trimRight]
  | cons c r ih =>
    rw [trimRight]
    cases hr : trimRight r with
    | nil =>
      have hall := ih.mp hr
      constructor
      · intro h
        by_cases hw : isWsChar c = true
        · intro x hx
          rcases List.mem_cons.mp hx with rfl | hx2
          · exact hw
          · exact hall x hx2
        · rw [if_neg hw] at h
          exact absurd h (by simp)
      · intro h
        rw [if_pos (h c (List.mem_cons_self c r))]
    | cons t0 ts =>
      constructor
      · intro h
        exact absurd h (by simp)
      · intro h
        have h0 : trimRight r = [] := ih.mpr (fun x hx => h x (List.mem_cons_of_mem c hx))
        rw [h0] at hr
        exact absurd hr (by simp)

/-- pyStrip returns the empty list exactly on all-whitespace input. -/
theorem pyStrip_eq_nil_iff {s : List Char} :
    pyStrip s = [] ↔ ∀ c ∈ s, isWsChar c = true := by
  rw [pyStrip, trimRight_eq_nil_iff]
  constructor
  · intro h c hc
    by_cases hw : isWsChar c = true
    · exact hw
    · have hsplit := List.takeWhile_append_dropWhile (p := isWsChar) (l := s)
      rw [← hsplit] at hc
      rcases List.mem_append.mp hc with h1 | h1
      · exact List.mem_takeWhile_imp h1
      · exact h c h1
  · intro h c hc
    exact h c ((List.dropWhile_sublist isWsChar (l := s)).subset hc)

/-- Digits are not whitespace. -/
theorem digit_not_ws {c : Char} (h : isDigitChar c = true) : isWsChar c = false := by
  rw [isDigitChar, Bool.and_eq_true, decide_eq_true_eq, decide_eq_true_eq] at h
  rw [isWsChar]
  simp only [Bool.or_eq_false_iff, decide_eq_false_iff_not]
  omega

/-- Characters of a kept takeWhile run satisfy the predicate. -/
theorem mem_takeWhile_pred {p : Char → Bool} {s : List Char} {c : Char}
    (h : c ∈ s.takeWhile p) : p c = true :=
  List.mem_takeWhile_imp h

/-- Every character of a `munchExt` consumption is a letter or a joiner. -/
theorem munchExt_chars : ∀ (f : Nat) (s : List Char), ∀ c ∈ (munchExt f s).1,
    (isTokLetter c || isTokSep c) = true := by
  intro f
  induction f with
  | zero => intro s c hc; simp [munchExt] at hc
  | succ f ih =>
    intro s c hc
    match s with
    | [] => simp [munchExt] at hc
    | [x] => simp [munchExt] at hc
    | x :: y :: rest =>
      rw [munchExt] at hc
      split at hc
      · rename_i hcond
        simp only [List.mem_cons, List.mem_append] at hc
        rcases hc with rfl | hc | hc
        · simp [Bool.and_eq_true] at hcond
          simp [hcond.1]
        · rw [takeLetters] at hc
          simp [mem_takeWhile_pred hc]
        · exact ih _ c hc
      · simp at hc

/-- Every character of every scanned token is a letter or a joiner. -/
theorem scanTokens_chars : ∀ (f : Nat) (pos : Nat) (s : List Char),
    ∀ p ∈ scanTokens f pos s, ∀ c ∈ p.2, (isTokLetter c || isTokSep c) = true := by
  intro f
  induction f with
  | zero => intro pos s p hp; simp [scanTokens] at hp
  | succ f ih =>
    intro pos s p hp c hc
    match s with
    | [] => simp [scanTokens] at hp
    | x :: r =>
      rw [scanTokens] at hp
      split at hp
      · rcases List.mem_cons.mp hp with rfl | hp2
        · simp only [List.mem_append] at hc
          rcases hc with hc | hc
          · rw [takeLetters] at hc
            simp [mem_takeWhile_pred hc]
          · exact munchExt_chars _ _ c hc
        · exact ih _ _ p hp2 c hc
      · exact ih _ _ p hp c hc

/-- Letters and joiners are not digits. -/
theorem tokchar_not_digit {c : Char} (h : (isTokLetter c || isTokSep c) = true) :
    isDigitChar c = false := by
  rw [isDigitChar]
  simp only [Bool.and_eq_false_iff, decide_eq_false_iff_not]
  rw [isTokLetter, isTokSep] at h
  simp only [Bool.or_eq_true, Bool.and_eq_true, decide_eq_true_eq] at h
  omega

/-- Whitespace-only texts contain no word-pattern match. -/
theorem scanTokens_of_ws : ∀ (f : Nat) (pos : Nat) (s : List Char),
    (∀ c ∈ s, isWsChar c = true) → scanTokens f pos s = [] := by
  intro f
  induction f with
  | zero => intro pos s _; rfl
  | succ f ih =>
    intro pos s hws
    match s with
    | [] => rfl
    | c :: r =>
      rw [scanTokens]
      have hc := hws c (List.mem_cons_self c r)
      have hnl : isTokLetter c = false := by
        rw [isWsChar] at hc
        rw [isTokLetter]
        simp only [Bool.or_eq_true, decide_eq_true_eq] at hc
        simp only [Bool.or_eq_false_iff, Bool.and_eq_false_iff, decide_eq_false_iff_not]
        omega
      rw [if_neg (by simp [hnl])]
      exact ih _ _ (fun x hx => hws x (List.mem_cons_of_mem c hx))

/-- No scanned token carries a digit. -/
theorem findTokens_no_digit (text : List Char) :
    (findTokens text).any (fun t => hasDigit t.2) = false := by
  rw [Bool.eq_false_iff]
  intro h
  rw [List.any_eq_true] at h
  obtain ⟨p, hp, hdig⟩ := h
  rw [hasDigit, List.any_eq_true] at hdig
  obtain ⟨c, hc, hd⟩ := hdig
  have := scanTokens_chars _ _ _ p hp c hc
  rw [tokchar_not_digit this] at hd
  exact absurd hd (by simp)

/-- C3 (amended): in strict mode a digit anywhere in the input makes
    both tokenize and tokenizeWithPositions fail; a digit-free input with
    some non-whitespace character and zero matches makes tokenize (only)
    fail with the no-tokens error; and tokenizeWithPositions never fails
    on digit-free input — zero matches yield an empty list there, as does
    whitespace-only input for tokenize. -/
theorem c3_strict_mode_amended :
    (∀ (pc : Bool) (text : List Char), hasDigit text = true →
      tokenize true pc text = Except.error "Digits are not allowed in strict mode" ∧
      tokenizeWithPositions true pc text =
        Except.error "Digits are not allowed in strict mode") ∧
    (∀ (pc : Bool) (text : List Char), hasDigit text = false →
      (∃ c ∈ text, isWsChar c = false) → findTokens text = [] →
      tokenize true pc text = Except.error "No valid tokens found") ∧
    (∀ (pc : Bool) (text : List Char), hasDigit text = false →
      tokenizeWithPositions true pc text =
        Except.ok ((findTokens text).map
          (fun t => (t.1, t.1 + t.2.length, normalizeToken pc t.2)))) := by
  refine ⟨?_, ?_, ?_⟩
  · intro pc text hd
    have hne : (pyStrip text).isEmpty = false := by
      rw [List.isEmpty_eq_false_iff_exists_mem]
      rw [hasDigit, List.any_eq_true] at hd
      obtain ⟨c, hc, hcd⟩ := hd
      by_contra hno
      push_neg at hno
      have : pyStrip text = [] := List.eq_nil_iff_forall_not_mem.mpr hno
      have := pyStrip_eq_nil_iff.mp this c hc
      rw [digit_not_ws hcd] at this
      exact absurd this (by simp)
    constructor
    · rw [tokenize, if_neg (by simp [hne]), if_pos (by simp [hd])]
    · rw [tokenizeWithPositions, if_pos (by simp [hd])]
  · intro pc text hd hex htoks
    have hne : (pyStrip text).isEmpty = false := by
      obtain ⟨c, hc, hcw⟩ := hex
      rw [List.isEmpty_eq_false_iff_exists_mem]
      by_contra hno
      push_neg at hno
      have : pyStrip text = [] := List.eq_nil_iff_forall_not_mem.mpr hno
      have := pyStrip_eq_nil_iff.mp this c hc
      rw [hcw] at this
      exact absurd this (by simp)
    rw [tokenize, if_neg (by simp [hne]), if_neg (by simp [hd]), if_pos (by simp [htoks])]
  · intro pc text hd
    rw [tokenizeWithPositions, if_neg (by simp [hd]),
      if_neg (by simp [findTokens_no_digit])]

/-- Witness for C3 (amended) at concrete inputs: "a1" (digit), "..."
    (clean, non-whitespace, zero tokens) and "ab c" (clean). -/
theorem c3_witness :
    (tokenize true false ("a1".toList) =
        Except.error "Digits are not allowed in strict mode" ∧
      tokenizeWithPositions true false ("a1".toList) =
        Except.error "Digits are not allowed in strict mode") ∧
    tokenize true false ("...".toList) = Except.error "No valid tokens found" ∧
    tokenizeWithPositions true false ("...".toList) = Except.ok [] :=
  ⟨(c3_strict_mode_amended.1 false ("a1".toList) (by decide)),
   (c3_strict_mode_amended.2.1 false ("...".toList) (by decide)
      ⟨'.', by decide, by decide⟩ (by decide)),
   by
     have h := c3_strict_mode_amended.2.2 false ("...".toList) (by decide)
     rw [h]
     rfl⟩

/-! Claim C5: agreement of tokenize and tokenizeWithPositions, and
    well-formedness of the reported offsets. -/

/-- The consumed and remaining parts of `munchExt` rebuild its input. -/
theorem munchExt_append : ∀ (f : Nat) (s : List Char),
    (munchExt f s).1 ++ (munchExt f s).2 = s := by
  intro f
  induction f with
  | zero => intro s; rfl
  | succ f ih =>
    intro s
    match s with
    | [] => rfl
    | [x] => rfl
    | x :: y :: rest =>
      rw [munchExt]
      split
      · have hq := ih ((y :: rest).dropWhile isTokLetter)
        simp only [takeLetters, List.cons_append, List.append_assoc]
        rw [hq, List.takeWhile_append_dropWhile]
      · rfl

/-- A lower bound on spans can be weakened. -/
theorem spansOK_mono (T : List Char) {lo lo2 : Nat} {l : List (Nat × List Char)}
    (h : spansOK T lo l) (hle : lo2 ≤ lo) : spansOK T lo2 l := by
  cases l with
  | nil => trivial
  | cons p rest =>
    obtain ⟨h1, h2⟩ := h
    exact ⟨le_trans hle h1, h2⟩

/-- The scanner always produces well-formed spans. -/
theorem scan_spec (T : List Char) : ∀ (f pos : Nat), (T.drop pos).length ≤ f →
    spansOK T pos (scanTokens f pos (T.drop pos)) := by
  intro f
  induction f with
  | zero =>
    intro pos _
    rw [scanTokens]
    trivial
  | succ f ih =>
    intro pos h
    cases hdrop : T.drop pos with
    | nil =>
      rw [scanTokens]
      trivial
    | cons c r =>
      rw [hdrop] at h
      rw [scanTokens]
      by_cases hl : isTokLetter c = true
      · rw [if_pos hl]
        have hp1 : (takeLetters (c :: r)).1 = c :: (r.takeWhile isTokLetter) := by
          rw [takeLetters]
          exact List.takeWhile_cons_of_pos hl
        have happ : ((takeLetters (c :: r)).1 ++
            (munchExt (takeLetters (c :: r)).2.length (takeLetters (c :: r)).2).1) ++
            (munchExt (takeLetters (c :: r)).2.length (takeLetters (c :: r)).2).2 =
            c :: r := by
          rw [List.append_assoc, munchExt_append, takeLetters,
            List.takeWhile_append_dropWhile]
        set tok := (takeLetters (c :: r)).1 ++
          (munchExt (takeLetters (c :: r)).2.length (takeLetters (c :: r)).2).1 with htok
        set rest := (munchExt (takeLetters (c :: r)).2.length (takeLetters (c :: r)).2).2
          with hrest
        have htokne : tok ≠ [] := by
          rw [htok, hp1]
          simp
        have hdropfull : tok ++ rest = T.drop pos := by rw [happ, hdrop]
        have hlen1 : tok.length + rest.length = T.length - pos := by
          have := congrArg List.length hdropfull
          rw [List.length_append, List.length_drop] at this
          exact this
        have htokpos : 1 ≤ tok.length := by
          cases htk : tok with
          | nil => exact absurd htk htokne
          | cons a b => simp [htk]
        have hposlt : pos < T.length := by
          by_contra hge
          push_neg at hge
          have : T.drop pos = [] := List.drop_eq_nil_of_le hge
          rw [this] at hdrop
          exact absurd hdrop (by simp)
        have hslice : (T.drop pos).take tok.length = tok := by
          rw [← hdropfull, List.take_left]
        have hrestdrop : rest = T.drop (pos + tok.length) := by
          have h1 : (tok ++ rest).drop tok.length = rest := List.drop_left tok rest
          rw [hdropfull] at h1
          rw [← h1, List.drop_drop]
        show pos ≤ pos ∧ tok ≠ [] ∧ (T.drop pos).take tok.length = tok ∧
          pos + tok.length ≤ T.length ∧
          spansOK T (pos + tok.length) (scanTokens f (pos + tok.length) rest)
        refine ⟨le_refl pos, htokne, hslice, by omega, ?_⟩
        have hfuel : (T.drop (pos + tok.length)).length ≤ f := by
          rw [List.length_drop]
          have hlen2 : T.length - pos = r.length + 1 := by
            have h3 := congrArg List.length hdrop
            rw [List.length_drop] at h3
            simpa using h3
          have hh : r.length + 1 ≤ f + 1 := by simpa using h
          omega
        have := ih (pos + tok.length) hfuel
        rw [← hrestdrop] at this
        exact this
      · rw [if_neg hl]
        have hr : r = T.drop (pos + 1) := by
          have h1 : (T.drop pos).drop 1 = T.drop (pos + 1) := by rw [List.drop_drop]
          rw [hdrop] at h1
          simpa using h1
        have hfuel : (T.drop (pos + 1)).length ≤ f := by
          rw [← hr]
          simp at h
          omega
        have := ih (pos + 1) hfuel
        rw [← hr] at this
        exact spansOK_mono T this (Nat.le_succ pos)

/-- Well-formed spans are chained and individually in bounds. -/
theorem spansOK_props (T : List Char) : ∀ (l : List (Nat × List Char)) (lo : Nat),
    spansOK T lo l →
    List.Chain' (fun a b => a.1 + a.2.length ≤ b.1) l ∧
    ∀ p ∈ l, lo ≤ p.1 ∧ p.2 ≠ [] ∧ (T.drop p.1).take p.2.length = p.2 ∧
      p.1 + p.2.length ≤ T.length := by
  intro l
  induction l with
  | nil => simp
  | cons a rest ih =>
    intro lo h
    obtain ⟨h1, h2, h3, h4, h5⟩ := h
    obtain ⟨ihc, ihm⟩ := ih _ h5
    constructor
    · rw [List.chain'_cons']
      refine ⟨?_, ihc⟩
      intro b hb
      cases rest with
      | nil => simp at hb
      | cons b2 r2 =>
        simp at hb
        subst hb
        exact h5.1
    · intro p hp
      rcases List.mem_cons.mp hp with rfl | hp2
      · exact ⟨h1, h2, h3, h4⟩
      · have hm := ihm p hp2
        exact ⟨by omega, hm.2.1, hm.2.2.1, hm.2.2.2⟩

/-- The found tokens of a text form well-formed spans from position 0. -/
theorem findTokens_spec (text : List Char) : spansOK text 0 (findTokens text) := by
  have h := scan_spec text text.length 0 (by simp)
  simpa [findTokens] using h

/-- C5: whenever tokenize and tokenizeWithPositions both succeed on the
    same text, they produce the same number of tokens; the reported
    spans are monotonically non-decreasing and non-overlapping (each
    start is at least the previous end), every span is non-degenerate
    and ends within the original text, and each underlying match slices
    the original text. -/
theorem c5_positions_consistent (strict pc : Bool) (text : List Char)
    (toks : List (List Char)) (poss : List (Nat × Nat × List Char))
    (h1 : tokenize strict pc text = Except.ok toks)
    (h2 : tokenizeWithPositions strict pc text = Except.ok poss) :
    toks.length = poss.length ∧
    List.Chain' (fun a b => a.2.1 ≤ b.1) poss ∧
    (∀ r ∈ poss, r.1 < r.2.1 ∧ r.2.1 ≤ text.length) ∧
    (∀ p ∈ findTokens text, (text.drop p.1).take p.2.length = p.2) := by
  obtain ⟨hchain, hmem⟩ := spansOK_props text (findTokens text) 0 (findTokens_spec text)
  have hposs : poss = (findTokens text).map
      (fun t => (t.1, t.1 + t.2.length, normalizeToken pc t.2)) := by
    simp only [tokenizeWithPositions] at h2
    split at h2
    · exact absurd h2 (by simp)
    · split at h2
      · exact absurd h2 (by simp)
      · simpa using h2.symm
  have htoks : toks.length = (findTokens text).length := by
    simp only [tokenize] at h1
    split at h1
    · rename_i hempty
      have hws : ∀ c ∈ text, isWsChar c = true := by
        refine pyStrip_eq_nil_iff.mp ?_
        rwa [← List.isEmpty_iff]
      have hfe : findTokens text = [] := scanTokens_of_ws _ _ _ hws
      have h4 : toks = [] := by simpa using h1.symm
      rw [h4, hfe]
      simp
    · split at h1
      · exact absurd h1 (by simp)
      · split at h1
        · exact absurd h1 (by simp)
        · split at h1
          · exact absurd h1 (by simp)
          · have : toks = (findTokens text).map
                (fun t => normalizeToken pc t.2) := by simpa using h1.symm
            rw [this, List.length_map]
  refine ⟨?_, ?_, ?_, ?_⟩
  · rw [htoks, hposs, List.length_map]
  · rw [hposs, List.chain'_map]
    exact hchain
  · intro r hr
    rw [hposs, List.mem_map] at hr
    obtain ⟨p, hp, rfl⟩ := hr
    have hm := hmem p hp
    have hne : 1 ≤ p.2.length := by
      cases hq : p.2 with
      | nil => exact absurd hq hm.2.1
      | cons a b => simp [hq]
    constructor
    · show p.1 < p.1 + p.2.length
      omega
    · show p.1 + p.2.length ≤ text.length
      exact hm.2.2.2
  · intro p hp
    exact (hmem p hp).2.2.1

/-- Witness for C5 at a concrete text. -/
theorem c5_witness :
    ([("AB".toList), ("C".toList)]).length =
      ([((0 : Nat), (2 : Nat), "AB".toList), ((3 : Nat), (4 : Nat), "C".toList)]).length ∧
    List.Chain' (fun (a b : Nat × Nat × List Char) => a.2.1 ≤ b.1)
      [((0 : Nat), (2 : Nat), "AB".toList), ((3 : Nat), (4 : Nat), "C".toList)] ∧
    (∀ r ∈ [((0 : Nat), (2 : Nat), "AB".toList), ((3 : Nat), (4 : Nat), "C".toList)],
      r.1 < r.2.1 ∧ r.2.1 ≤ ("ab c".toList).length) ∧
    (∀ p ∈ findTokens ("ab c".toList),
      (("ab c".toList).drop p.1).take p.2.length = p.2) :=
  c5_positions_consistent false false ("ab c".toList)
    [("AB".toList), ("C".toList)]
    [((0 : Nat), (2 : Nat), "AB".toList), ((3 : Nat), (4 : Nat), "C".toList)]
    (by rfl) (by rfl)

/-! Claim C1 (amended): reconstruction invariant of the syllabifier up
    to separator removal. -/

/-- toNat of Char.ofNat on the valid low range. -/
theorem char_toNat_ofNat {n : Nat} (h : n < 55296) : (Char.ofNat n).toNat = n := by
  rw [Char.ofNat]
  rw [dif_pos (by rw [Nat.isValidChar]; omega)]
  rfl

/-- Boolean character equality is false when the code points differ. -/
theorem char_beq_false {c d : Char} (h : c.toNat ≠ d.toNat) : (c == d) = false := by
  rw [beq_eq_false_iff_ne]
  intro he
  exact h (by rw [he])

/-- Lookup misses every table whose keys all lie above the probe. -/
theorem accent_lookup_none {l : List (Char × Char)} {c : Char} (hc : c.toNat ≤ 191)
    (hl : ∀ p ∈ l, 192 ≤ p.1.toNat) : l.lookup c = none := by
  induction l with
  | nil => rfl
  | cons p ps ih =>
    rw [List.lookup]
    have hp := hl p (List.mem_cons_self p ps)
    rw [char_beq_false (by omega)]
    exact ih (fun q hq => hl q (List.mem_cons_of_mem p hq))

/-- All LOWER_MAP keys are accented. -/
theorem LOWER_MAP_keys : ∀ p ∈ LOWER_MAP, 192 ≤ p.1.toNat := by decide

/-- All UPPER_MAP keys are accented. -/
theorem UPPER_MAP_keys : ∀ p ∈ UPPER_MAP, 192 ≤ p.1.toNat := by decide

/-- pyToLower on the unaccented range reduces to the ASCII rule. -/
theorem pyToLower_base {d : Char} (hd : d.toNat ≤ 191) :
    pyToLower d = if 65 ≤ d.toNat ∧ d.toNat ≤ 90 then Char.ofNat (d.toNat + 32) else d := by
  rw [pyToLower, accent_lookup_none (by omega) LOWER_MAP_keys]

/-- pyToLower of an ASCII character is ASCII, and is a fixed point of
    pyToLower. -/
theorem pyToLower_ascii {c : Char} (h : c.toNat ≤ 127) :
    (pyToLower c).toNat ≤ 127 ∧ pyToLower (pyToLower c) = pyToLower c := by
  rw [pyToLower_base (by omega)]
  by_cases hc : 65 ≤ c.toNat ∧ c.toNat ≤ 90
  · rw [if_pos hc]
    have ht : (Char.ofNat (c.toNat + 32)).toNat = c.toNat + 32 :=
      char_toNat_ofNat (by omega)
    constructor
    · rw [ht]
      omega
    · rw [pyToLower_base (by rw [ht]; omega), if_neg (by rw [ht]; omega)]
  · rw [if_neg hc]
    exact ⟨h, by rw [pyToLower_base (by omega), if_neg hc]⟩

/-- First components of the NFD decompositions are ASCII base letters. -/
theorem NFD_MAP_values : ∀ v ∈ NFD_MAP.map Prod.snd, (v.headD ' ').toNat ≤ 127 := by
  decide

/-- Every character of a normalised syllabifier word is an ASCII fixed
    point of pyToLower. -/
theorem normWordSyl_chars {w : List Char} {c : Char} (h : c ∈ normWordSyl w) :
    pyToLower c = c ∧ c.toNat ≤ 127 := by
  rw [normWordSyl, List.mem_filterMap] at h
  obtain ⟨a, _, ha⟩ := h
  rw [foldAsciiLower] at ha
  split at ha
  · rename_i hle
    have hfix := pyToLower_ascii hle
    have hc : c = pyToLower a := by
      simpa using ha.symm
    rw [hc]
    exact ⟨hfix.2, hfix.1⟩
  · split at ha
    · rename_i l hl
      have hv := NFD_MAP_values l (lookup_mem_values _ _ _ hl)
      cases l with
      | nil => exact absurd ha (by simp)
      | cons b rest =>
        simp only [List.headD_cons] at hv
        have hfix := pyToLower_ascii hv
        have hc : c = pyToLower b := by simpa using ha.symm
        rw [hc]
        exact ⟨hfix.2, hfix.1⟩
    · exact absurd ha (by simp)

/-- If every element maps to itself, filterMap is the identity. -/
theorem filterMap_id_of {f : Char → Option Char} {s : List Char}
    (h : ∀ c ∈ s, f c = some c) : s.filterMap f = s := by
  induction s with
  | nil => rfl
  | cons c r ih =>
    rw [List.filterMap_cons, h c (List.mem_cons_self c r),
      ih (fun x hx => h x (List.mem_cons_of_mem c hx))]

/-- normWordSyl is the identity on its own output fragments. -/
theorem normWordSyl_id {s : List Char} (h : ∀ c ∈ s, pyToLower c = c ∧ c.toNat ≤ 127) :
    normWordSyl s = s := by
  rw [normWordSyl]
  refine filterMap_id_of ?_
  intro c hc
  rw [foldAsciiLower, if_pos (h c hc).2, (h c hc).1]

/-- Valid syllabifier characters are letters, apostrophe or hyphen, by
    code point. -/
theorem sylValidChar_toNat {c : Char} (h : sylValidChar c = true) :
    (65 ≤ c.toNat ∧ c.toNat ≤ 90) ∨ (97 ≤ c.toNat ∧ c.toNat ≤ 122) ∨
      c.toNat = 39 ∨ c.toNat = 45 := by
  rw [sylValidChar, isAsciiLetter] at h
  simp only [Bool.or_eq_true, Bool.and_eq_true, decide_eq_true_eq] at h
  have h39 : ('\'').toNat = 39 := rfl
  have h45 : ('-').toNat = 45 := rfl
  rcases h with ((h | h) | h) | h
  · exact Or.inl h
  · exact Or.inr (Or.inl h)
  · exact Or.inr (Or.inr (Or.inl (by rw [h]; rfl)))
  · exact Or.inr (Or.inr (Or.inr (by rw [h]; rfl)))

/-- Valid syllabifier characters are not whitespace. -/
theorem sylValidChar_not_ws {c : Char} (h : sylValidChar c = true) : isWsChar c = false := by
  have := sylValidChar_toNat h
  rw [isWsChar]
  simp only [Bool.or_eq_false_iff, decide_eq_false_iff_not]
  omega

/-- dropWhile is the identity when no character satisfies the predicate. -/
theorem dropWhile_id_of {p : Char → Bool} {s : List Char}
    (h : ∀ c ∈ s, p c = false) : s.dropWhile p = s := by
  cases s with
  | nil => rfl
  | cons c r =>
    exact List.dropWhile_cons_of_neg (by simp [h c (List.mem_cons_self c r)])

/-- trimRight is the identity when no character is whitespace. -/
theorem trimRight_id_of {s : List Char} (h : ∀ c ∈ s, isWsChar c = false) :
    trimRight s = s := by
  induction s with
  | nil => rfl
  | cons c r ih =>
    rw [trimRight, ih (fun x hx => h x (List.mem_cons_of_mem c hx))]
    cases r with
    | nil => simp [h c (List.mem_cons_self c [])]
    | cons a b => rfl

/-- pyStrip is the identity on whitespace-free strings. -/
theorem pyStrip_id_of {s : List Char} (h : ∀ c ∈ s, isWsChar c = false) :
    pyStrip s = s := by
  rw [pyStrip, dropWhile_id_of h, trimRight_id_of h]

/-- splitOnChar never returns an empty list of parts. -/
theorem splitOnChar_ne_nil (sep : Char) (w : List Char) : splitOnChar sep w ≠ [] := by
  cases w with
  | nil => simp [splitOnChar]
  | cons c r =>
    rw [splitOnChar]
    split
    · simp
    · split
      · simp
      · simp

/-- Concatenating the parts of a split recovers the separator-free
    characters. -/
theorem splitOnChar_flatten (sep : Char) (w : List Char) :
    (splitOnChar sep w).flatten = w.filter (fun c => !(c == sep)) := by
  induction w with
  | nil => rfl
  | cons c r ih =>
    rw [splitOnChar]
    by_cases hc : c = sep
    · rw [if_pos hc, List.flatten_cons, List.nil_append, ih, List.filter_cons,
        hc]
      simp
    · rw [if_neg hc]
      cases hps : splitOnChar sep r with
      | nil => exact absurd hps (splitOnChar_ne_nil sep r)
      | cons p ps2 =>
        rw [List.flatten_cons, List.filter_cons]
        have hcb : (!(c == sep)) = true := by simp [hc]
        have h2 : p ++ ps2.flatten = List.filter (fun c => !(c == sep)) r := by
          have h3 := ih
          rw [hps, List.flatten_cons] at h3
          exact h3
        simp [hcb, h2]

/-- Characters of the parts of a split come from the word and are not
    the separator. -/
theorem splitOnChar_mem_chars {sep : Char} {w p : List Char} {c : Char}
    (hp : p ∈ splitOnChar sep w) (hc : c ∈ p) : c ∈ w ∧ c ≠ sep := by
  induction w generalizing p with
  | nil =>
    simp [splitOnChar] at hp
    subst hp
    simp at hc
  | cons a r ih =>
    rw [splitOnChar] at hp
    split at hp
    · rename_i ha
      rcases List.mem_cons.mp hp with rfl | hp2
      · simp at hc
      · have h4 := ih hp2 hc
        exact ⟨List.mem_cons_of_mem a h4.1, h4.2⟩
    · rename_i ha
      cases hps : splitOnChar sep r with
      | nil => exact absurd hps (splitOnChar_ne_nil sep r)
      | cons q qs =>
        rw [hps] at hp
        rcases List.mem_cons.mp hp with rfl | hp2
        · rcases List.mem_cons.mp hc with rfl | hc2
          · exact ⟨List.mem_cons_self c r, ha⟩
          · have := ih (p := q) (by rw [hps]; exact List.mem_cons_self q qs) hc2
            exact ⟨List.mem_cons_of_mem a this.1, this.2⟩
        · have := ih (p := p) (by rw [hps]; exact List.mem_cons_of_mem q hp2) hc
          exact ⟨List.mem_cons_of_mem a this.1, this.2⟩

/-- A member's length is at most the sum of the lengths. -/
theorem length_le_sum_of_mem {p : List Char} {l : List (List Char)} (h : p ∈ l) :
    p.length ≤ (l.map List.length).sum := by
  induction l with
  | nil => simp at h
  | cons q qs ih =>
    rcases List.mem_cons.mp h with rfl | h2
    · simp
    · have := ih h2
      simp only [List.map_cons, List.sum_cons]
      omega

/-- Parts of a split on a present separator are strictly shorter. -/
theorem splitOnChar_part_length {sep : Char} {w p : List Char}
    (hsep : sep ∈ w) (hp : p ∈ splitOnChar sep w) : p.length < w.length := by
  have h1 : p.length ≤ ((splitOnChar sep w).map List.length).sum :=
    length_le_sum_of_mem hp
  have h2 : ((splitOnChar sep w).map List.length).sum =
      (w.filter (fun c => !(c == sep))).length := by
    rw [← List.length_flatten, splitOnChar_flatten]
  have h3 : (w.filter (fun c => !(c == sep))).length < w.length := by
    rw [List.length_filter_lt_length_iff_exists]
    exact ⟨sep, hsep, by simp⟩
  omega

/-- The final reconstruction check and consonant-only fallback always
    yield a non-empty list whose concatenation is the input word. -/
theorem fix4_spec (p : List Char) (syls : List (List Char)) :
    ((if syls.flatten ≠ p then [p]
      else if syls.isEmpty then [p] else syls).flatten = p) ∧
    (if syls.flatten ≠ p then [p]
      else if syls.isEmpty then [p] else syls) ≠ [] := by
  by_cases h1 : syls.flatten = p
  · rw [if_neg (not_not_intro h1)]
    by_cases h2 : syls.isEmpty = true
    · rw [if_pos h2]
      simp
    · rw [if_neg h2]
      refine ⟨h1, ?_⟩
      intro hn
      exact h2 (by rw [hn]; rfl)
  · rw [if_pos h1]
    simp

/-- The separator-free core always reconstructs its non-empty input and
    returns at least one syllable (guaranteed by the source's Fix 4 and
    consonant-only fallback). -/
theorem sylCore_flatten {p : List Char} (_hp : p ≠ []) :
    (sylCore p).flatten = p ∧ sylCore p ≠ [] := by
  simp only [sylCore]
  exact fix4_spec p _

/-- Valid syllabifier characters are not digits. -/
theorem sylValidChar_not_digit {c : Char} (h : sylValidChar c = true) :
    isDigitChar c = false := by
  have := sylValidChar_toNat h
  rw [isDigitChar]
  simp only [Bool.and_eq_false_iff, decide_eq_false_iff_not]
  omega

/-- The syllabifier returns no syllables for the empty word. -/
theorem syllabifyAux_nil (strict : Bool) : ∀ f, syllabifyAux strict f [] = [] := by
  intro f
  cases f with
  | zero => rfl
  | succ f =>
    rw [syllabifyAux]
    rfl

/-- Flattening twice commutes with mapping the inner flatten. -/
theorem flatten_map_flatten (g : List Char → List (List Char)) :
    ∀ (l : List (List Char)),
      ((l.map g).flatten).flatten = (l.map (fun p => (g p).flatten)).flatten := by
  intro l
  induction l with
  | nil => rfl
  | cons p rest ih =>
    simp only [List.map_cons, List.flatten_cons, List.flatten_append, ih]

/-- Core lemma for C1: whenever the syllabifier's pre-checks pass, the
    concatenation of the returned syllables is the normalised word with
    all separators removed. -/
theorem syllabifyAux_flatten (strict : Bool) :
    ∀ (f : Nat) (w : List Char), w.length < f →
    (pyStrip w).isEmpty = false →
    hasDigit (normWordSyl w) = false →
    (!(normWordSyl w).isEmpty && (normWordSyl w).all sylValidChar) = true →
    (strict = true → (!(normWordSyl w).isEmpty &&
      (normWordSyl w).all (fun c => isLowerLetter c || c = '\'' || c = '-')) = true) →
    (syllabifyAux strict f w).flatten =
      (normWordSyl w).filter (fun c => !(c == '\'' || c == '-')) := by
  intro f
  induction f with
  | zero =>
    intro w hlen _ _ _ _
    exact absurd hlen (Nat.not_lt_zero _)
  | succ f ih =>
    intro w hlen hstrip hdig hvalid hstrict
    have hwlen : (normWordSyl w).length ≤ f := by
      have h1 : (normWordSyl w).length ≤ w.length := List.length_filterMap_le _ _
      omega
    have hvalid2 : ∀ c ∈ normWordSyl w, sylValidChar c = true := by
      rw [Bool.and_eq_true, List.all_eq_true] at hvalid
      exact hvalid.2
    have hbranch : ∀ sep : Char, sep = '\'' ∨ sep = '-' → sep ∈ normWordSyl w →
        (((splitOnChar sep (normWordSyl w)).map (syllabifyAux strict f)).flatten).flatten =
          (normWordSyl w).filter (fun c => !(c == '\'' || c == '-')) := by
      intro sep hsep hsepmem
      rw [flatten_map_flatten]
      have hparts : ∀ p ∈ splitOnChar sep (normWordSyl w),
          (syllabifyAux strict f p).flatten =
            p.filter (fun c => !(c == '\'' || c == '-')) := by
        intro p hp
        cases hpe : p with
        | nil => rw [syllabifyAux_nil]; rfl
        | cons c0 p0 =>
          rw [← hpe]
          have hpchars : ∀ c ∈ p, c ∈ normWordSyl w ∧ c ≠ sep :=
            fun c hc => splitOnChar_mem_chars hp hc
          have hpvalid : ∀ c ∈ p, sylValidChar c = true :=
            fun c hc => hvalid2 c (hpchars c hc).1
          have hpfix : ∀ c ∈ p, pyToLower c = c ∧ c.toNat ≤ 127 :=
            fun c hc => normWordSyl_chars (hpchars c hc).1
          have hnormp : normWordSyl p = p := normWordSyl_id hpfix
          have hstripp : pyStrip p = p :=
            pyStrip_id_of (fun c hc => sylValidChar_not_ws (hpvalid c hc))
          have hpne : p ≠ [] := by rw [hpe]; simp
          have hplen : p.length < f := by
            have h2 := splitOnChar_part_length hsepmem hp
            omega
          have hdigp : hasDigit (normWordSyl p) = false := by
            rw [hnormp, hasDigit, Bool.eq_false_iff]
            intro hx
            rw [List.any_eq_true] at hx
            obtain ⟨c, hc, hd⟩ := hx
            rw [sylValidChar_not_digit (hpvalid c hc)] at hd
            exact absurd hd (by simp)
          have hvalidp : (!(normWordSyl p).isEmpty && (normWordSyl p).all sylValidChar)
              = true := by
            rw [hnormp, Bool.and_eq_true, List.all_eq_true]
            exact ⟨by simp [hpne], hpvalid⟩
          have hstrictp : strict = true → (!(normWordSyl p).isEmpty &&
              (normWordSyl p).all (fun c => isLowerLetter c || c = '\'' || c = '-'))
              = true := by
            intro hs
            have hw := hstrict hs
            rw [Bool.and_eq_true, List.all_eq_true] at hw
            rw [hnormp, Bool.and_eq_true, List.all_eq_true]
            exact ⟨by simp [hpne], fun c hc => hw.2 c (hpchars c hc).1⟩
          have := ih p hplen (by rw [hstripp]; simp [hpne]) hdigp hvalidp hstrictp
          rw [this, hnormp]
      rw [List.map_congr_left hparts, ← List.filter_flatten, splitOnChar_flatten,
        List.filter_filter]
      apply List.filter_congr
      intro a _
      by_cases hns : (!(a == '\'' || a == '-')) = true
      · rw [hns, Bool.true_and]
        simp only [Bool.or_eq_true, beq_iff_eq, Bool.not_eq_true'] at hns
        rcases hsep with rfl | rfl
        · simp only [Bool.not_eq_true', beq_eq_false_iff_ne]
          intro he
          rw [he] at hns
          simp at hns
        · simp only [Bool.not_eq_true', beq_eq_false_iff_ne]
          intro he
          rw [he] at hns
          simp at hns
      · rw [Bool.not_eq_true] at hns
        rw [hns, Bool.false_and]
    simp only [syllabifyAux]
    rw [if_neg (by simp [hstrip])]
    rw [if_neg (by simp [hdig])]
    rw [if_neg (by simp [hvalid])]
    rw [if_neg (by
      cases hs : strict
      · simp
      · have hx := hstrict hs
        simp [hx])]
    by_cases hq : (normWordSyl w).contains '\'' = true
    · rw [if_pos hq]
      exact hbranch '\'' (Or.inl rfl) (by simpa [List.elem_iff] using hq)
    · rw [if_neg hq]
      by_cases hh : (normWordSyl w).contains '-' = true
      · rw [if_pos hh]
        exact hbranch '-' (Or.inr rfl) (by simpa [List.elem_iff] using hh)
      · rw [if_neg hh]
        have hne : normWordSyl w ≠ [] := by
          rw [Bool.and_eq_true] at hvalid
          have := hvalid.1
          simpa using this
        obtain ⟨hf, _⟩ := sylCore_flatten hne
        rw [hf]
        symm
        apply List.filter_eq_self.mpr
        intro a ha
        have hq2 : a ≠ '\'' := by
          intro he
          rw [he] at ha
          exact hq (by simpa [List.elem_iff] using ha)
        have hh2 : a ≠ '-' := by
          intro he
          rw [he] at ha
          exact hh (by simpa [List.elem_iff] using ha)
        simp [hq2, hh2]

/-- C1 (amended): for every word on which syllabify returns a non-empty
    list, the concatenation of the syllables equals the diacritic-folded,
    lower-cased form of the word with all apostrophes and hyphens
    removed; in particular, for separator-free words the concatenation
    equals the folded, lower-cased word exactly. -/
theorem c1_reconstruction_amended (strict : Bool) (w : List Char)
    (h : syllabify strict w ≠ []) :
    (syllabify strict w).flatten =
      (normWordSyl w).filter (fun c => !(c == '\'' || c == '-')) ∧
    (('\'' ∉ normWordSyl w ∧ '-' ∉ normWordSyl w) →
      (syllabify strict w).flatten = normWordSyl w) := by
  have hchecks1 : (pyStrip w).isEmpty = false := by
    by_contra hx
    rw [Bool.not_eq_false] at hx
    apply h
    rw [syllabify, syllabifyAux, if_pos hx]
  have hchecks2 : hasDigit (normWordSyl w) = false := by
    by_contra hx
    rw [Bool.not_eq_false] at hx
    apply h
    rw [syllabify, syllabifyAux, if_neg (by simp [hchecks1]), if_pos hx]
  have hchecks3 : (!(normWordSyl w).isEmpty && (normWordSyl w).all sylValidChar)
      = true := by
    by_contra hx
    rw [Bool.not_eq_true] at hx
    apply h
    rw [syllabify, syllabifyAux, if_neg (by simp [hchecks1]), if_neg (by simp [hchecks2]),
      if_pos (by simp [hx])]
  have hchecks4 : strict = true → (!(normWordSyl w).isEmpty &&
      (normWordSyl w).all (fun c => isLowerLetter c || c = '\'' || c = '-')) = true := by
    intro hs
    by_contra hx
    rw [Bool.not_eq_true] at hx
    apply h
    rw [syllabify, syllabifyAux, if_neg (by simp [hchecks1]), if_neg (by simp [hchecks2]),
      if_neg (by simp [hchecks3]), if_pos (by simp [hs, hx])]
  have hmain := syllabifyAux_flatten strict (w.length + 1) w (by omega)
    hchecks1 hchecks2 hchecks3 hchecks4
  rw [syllabify]
  refine ⟨hmain, ?_⟩
  rintro ⟨hq, hh⟩
  rw [hmain]
  apply List.filter_eq_self.mpr
  intro a ha
  have hq2 : a ≠ '\'' := fun he => hq (he ▸ ha)
  have hh2 : a ≠ '-' := fun he => hh (he ▸ ha)
  simp [hq2, hh2]

/-- Witness for C1 (amended) at the word "a-ba". -/
theorem c1_witness :
    syllabify false ("a-ba".toList) ≠ [] ∧
    (syllabify false ("a-ba".toList)).flatten =
      (normWordSyl ("a-ba".toList)).filter (fun c => !(c == '\'' || c == '-')) :=
  ⟨by decide, (c1_reconstruction_amended false ("a-ba".toList) (by decide)).1⟩

/-! Claim C7: abbreviation protection in the sentence tokenizer.  The
    sentinel pass removes every occurrence of every protected
    abbreviation from the string that is split, so no split can occur at
    a protected period; the spec's concrete scenario is also proved. -/

/-- A member of the optional last element is a member. -/
theorem mem_of_getLast?_eq {l : List Char} {a : Char} (h : l.getLast? = some a) : a ∈ l :=
  List.mem_of_mem_getLast? (by rw [h]; rfl)

/-- A list with a last element is non-empty. -/
theorem ne_nil_of_getLast? {l : List Char} {a : Char} (h : l.getLast? = some a) :
    l ≠ [] := by
  intro he
  rw [he] at h
  simp at h

/-- A non-empty suffix contains the last element of the whole list. -/
theorem mem_of_suffix_getLast? {B1 R : List Char} {a : Char} (h : B1 <:+ R)
    (hne : B1 ≠ []) (hR : R.getLast? = some a) : a ∈ B1 := by
  obtain ⟨D, rfl⟩ := h
  rw [List.getLast?_append_of_ne_nil D hne] at hR
  exact mem_of_getLast?_eq hR

/-- getLast? ignores a cons onto a non-empty list. -/
theorem getLast?_cons_ne {b : Char} {l : List Char} (h : l ≠ []) :
    (b :: l).getLast? = l.getLast? := by
  have h2 := List.getLast?_append_of_ne_nil [b] h
  simpa using h2

/-- Decomposition of a prefix of an append. -/
theorem prefix_append_cases {B R X : List Char} (h : B <+: R ++ X) :
    B <+: R ∨ ∃ B2, B = R ++ B2 ∧ B2 <+: X := by
  induction R generalizing B with
  | nil =>
    right
    exact ⟨B, by simp, by simpa using h⟩
  | cons a R2 ih =>
    cases B with
    | nil => exact Or.inl (List.nil_prefix)
    | cons b B2 =>
      obtain ⟨t, ht⟩ := h
      simp only [List.cons_append, List.cons.injEq] at ht
      obtain ⟨rfl, ht2⟩ := ht
      rcases ih ⟨t, ht2⟩ with hl | ⟨B3, heq, hx⟩
      · left
        obtain ⟨u, hu⟩ := hl
        exact ⟨u, by simp [hu]⟩
      · right
        exact ⟨B3, by simp [heq], hx⟩

/-- Decomposition of an infix of an append. -/
theorem infix_append_cases {B R X : List Char} (h : B <:+: R ++ X) :
    B <:+: R ∨ B <:+: X ∨
      ∃ B1 B2, B = B1 ++ B2 ∧ B1 ≠ [] ∧ B2 ≠ [] ∧ B1 <:+ R ∧ B2 <+: X := by
  induction R with
  | nil => exact Or.inr (Or.inl (by simpa using h))
  | cons a R2 ih =>
    rw [List.cons_append, List.infix_cons_iff] at h
    rcases h with hpre | hinf
    · have hpre2 : B <+: (a :: R2) ++ X := by simpa using hpre
      rcases prefix_append_cases hpre2 with h1 | ⟨B2, heq, hx⟩
      · exact Or.inl h1.isInfix
      · cases hB2 : B2 with
        | nil =>
          left
          rw [heq, hB2, List.append_nil]
        | cons q qs =>
          right; right
          exact ⟨a :: R2, B2, by simp [heq], by simp, by simp [hB2],
            List.suffix_refl _, hx⟩
    · rcases ih hinf with h1 | h1 | ⟨B1, B2, heq, hne1, hne2, hsuf, hpre⟩
      · exact Or.inl (h1.trans (List.suffix_cons a R2).isInfix)
      · exact Or.inr (Or.inl h1)
      · exact Or.inr (Or.inr ⟨B1, B2, heq, hne1, hne2,
          hsuf.trans (List.suffix_cons a R2), hpre⟩)

/-- Prefix reflection through one replacement pass: a pattern-free piece
    that ends with a period and avoids the sentinel closer is a prefix of
    the output only if it was a prefix of the input. -/
theorem replace_prefix_reflect (P R : List Char)
    (hR1 : ('.' : Char) ∉ R) (hR2 : R.getLast? = some '>') :
    ∀ (f : Nat) (s B1 : List Char), (B1 = [] ∨ B1.getLast? = some '.') →
      ('>' : Char) ∉ B1 →
      B1 <+: replaceAllFuel P R f s → B1 <+: s := by
  intro f
  induction f with
  | zero =>
    intro s B1 _ _ h
    exact h
  | succ f ih =>
    intro s B1 hshape hgt h
    cases s with
    | nil => exact h
    | cons c r =>
      rw [replaceAllFuel] at h
      split at h
      · rcases hshape with rfl | hlast
        · exact List.nil_prefix
        · exfalso
          rcases prefix_append_cases h with hpre | ⟨B2, heq, _⟩
          · exact hR1 (hpre.subset (mem_of_getLast?_eq hlast))
          · exact hgt (heq ▸ List.mem_append_left B2 (mem_of_getLast?_eq hR2))
      · cases B1 with
        | nil => exact List.nil_prefix
        | cons b B2 =>
          obtain ⟨t, ht⟩ := h
          simp only [List.cons_append, List.cons.injEq] at ht
          obtain ⟨rfl, ht2⟩ := ht
          have hshape2 : B2 = [] ∨ B2.getLast? = some '.' := by
            rcases hshape with h0 | hlast
            · exact absurd h0 (by simp)
            · cases hB2 : B2 with
              | nil => exact Or.inl rfl
              | cons q qs =>
                right
                rw [← hB2]
                rw [getLast?_cons_ne (by simp [hB2])] at hlast
                exact hlast
          have h4 := ih r B2 hshape2 (fun hm => hgt (List.mem_cons_of_mem _ hm)) ⟨t, ht2⟩
          obtain ⟨u, hu⟩ := h4
          exact ⟨u, by simp [hu]⟩

/-- Infix reflection through one replacement pass: an occurrence of a
    period-final, sentinel-free word in the output comes from an
    occurrence in the input. -/
theorem replace_infix_reflect (P R : List Char)
    (hR1 : ('.' : Char) ∉ R) (hR2 : R.getLast? = some '>') :
    ∀ (f : Nat) (s B : List Char), B.getLast? = some '.' → ('>' : Char) ∉ B →
      B <:+: replaceAllFuel P R f s → B <:+: s := by
  intro f
  induction f with
  | zero =>
    intro s B _ _ h
    exact h
  | succ f ih =>
    intro s B hlast hgt h
    cases s with
    | nil => exact h
    | cons c r =>
      rw [replaceAllFuel] at h
      split at h
      · rename_i hcond
        rw [Bool.and_eq_true] at hcond
        have hpat : P <+: c :: r := by
          have := hcond.2
          rwa [List.isPrefixOf_iff_prefix] at this
        obtain ⟨tl, htl⟩ := hpat
        have hdrop : (c :: r).drop P.length = tl := by
          rw [← htl, List.drop_left]
        rw [hdrop] at h
        rcases infix_append_cases h with h1 | h1 | ⟨B1, B2, heq, hne1, _, hsuf, _⟩
        · exact absurd (h1.subset (mem_of_getLast?_eq hlast)) hR1
        · have := ih tl B hlast hgt h1
          have htls : tl <:+ c :: r := ⟨P, htl⟩
          exact this.trans htls.isInfix
        · exact absurd (heq ▸ List.mem_append_left B2
            (mem_of_suffix_getLast? hsuf hne1 hR2)) hgt
      · obtain ⟨l, t, hlt⟩ := h
        cases l with
        | nil =>
          simp only [List.nil_append] at hlt
          cases B with
          | nil => simp at hlast
          | cons b B2 =>
            simp only [List.cons_append, List.cons.injEq] at hlt
            obtain ⟨rfl, ht2⟩ := hlt
            have hshape2 : B2 = [] ∨ B2.getLast? = some '.' := by
              cases hB2 : B2 with
              | nil => exact Or.inl rfl
              | cons q qs =>
                right
                rw [← hB2]
                rw [getLast?_cons_ne (by simp [hB2])] at hlast
                exact hlast
            have h4 := replace_prefix_reflect P R hR1 hR2 f r B2 hshape2
              (fun hm => hgt (List.mem_cons_of_mem _ hm)) ⟨t, ht2⟩
            obtain ⟨u, hu⟩ := h4
            exact ⟨[], u, by simp [hu]⟩
        | cons c2 l2 =>
          simp only [List.cons_append, List.cons.injEq] at hlt
          obtain ⟨rfl, ht2⟩ := hlt
          have h4 := ih r B hlast hgt ⟨l2, t, ht2⟩
          exact h4.trans (List.suffix_cons c2 r).isInfix

/-- A non-empty list is not an infix of the empty list. -/
theorem not_infix_nil {P : List Char} (hne : P ≠ []) : ¬ P <:+: [] := by
  intro h
  obtain ⟨l, t, hlt⟩ := h
  simp only [List.append_eq_nil] at hlt
  exact hne hlt.1.2

/-- Self-removal: after a full replacement pass (enough fuel for the
    whole string), the pattern no longer occurs anywhere. -/
theorem replace_self_not_infix (P R : List Char)
    (hR1 : ('.' : Char) ∉ R) (hR2 : R.getLast? = some '>')
    (hP1 : P.getLast? = some '.') (hPgt : ('>' : Char) ∉ P) :
    ∀ (f : Nat) (s : List Char), s.length ≤ f → ¬ P <:+: replaceAllFuel P R f s := by
  intro f
  induction f with
  | zero =>
    intro s hf h
    have hs : s = [] := by
      cases s with
      | nil => rfl
      | cons a b => simp at hf
    have hred : replaceAllFuel P R 0 [] = [] := rfl
    rw [hs, hred] at h
    exact not_infix_nil (ne_nil_of_getLast? hP1) h
  | succ f ih =>
    intro s hf h
    cases s with
    | nil =>
      have hred : replaceAllFuel P R (f + 1) [] = [] := rfl
      rw [hred] at h
      exact not_infix_nil (ne_nil_of_getLast? hP1) h
    | cons c r =>
      rw [replaceAllFuel] at h
      split at h
      · rename_i hcond
        rw [Bool.and_eq_true] at hcond
        have hpat : P <+: c :: r := by
          have := hcond.2
          rwa [List.isPrefixOf_iff_prefix] at this
        obtain ⟨tl, htl⟩ := hpat
        have hdrop : (c :: r).drop P.length = tl := by
          rw [← htl, List.drop_left]
        rw [hdrop] at h
        have hPne : P ≠ [] := ne_nil_of_getLast? hP1
        have hPpos : 1 ≤ P.length := by
          cases hP : P with
          | nil => exact absurd hP hPne
          | cons a b => simp [hP]
        rcases infix_append_cases h with h1 | h1 | ⟨B1, B2, heq, hne1, _, hsuf, _⟩
        · exact absurd (h1.subset (mem_of_getLast?_eq hP1)) hR1
        · have htllen : tl.length ≤ f := by
            have h5 := congrArg List.length htl
            simp only [List.length_cons, List.length_append] at h5
            have h6 : r.length + 1 ≤ f + 1 := by simpa using hf
            omega
          exact ih tl htllen h1
        · exact absurd (heq ▸ List.mem_append_left B2
            (mem_of_suffix_getLast? hsuf hne1 hR2)) hPgt
      · rename_i hcond
        obtain ⟨l, t, hlt⟩ := h
        cases l with
        | nil =>
          simp only [List.nil_append] at hlt
          cases hPs : P with
          | nil => exact (ne_nil_of_getLast? hP1) hPs
          | cons b P2 =>
            rw [hPs] at hlt
            simp only [List.cons_append, List.cons.injEq] at hlt
            obtain ⟨hbc, ht2⟩ := hlt
            have hshape2 : P2 = [] ∨ P2.getLast? = some '.' := by
              rw [hPs] at hP1
              cases hq : P2 with
              | nil => exact Or.inl rfl
              | cons q qs =>
                right
                rw [← hq]
                rw [getLast?_cons_ne (by simp [hq])] at hP1
                exact hP1
            have hgt2 : ('>' : Char) ∉ P2 :=
              fun hm => hPgt (hPs ▸ List.mem_cons_of_mem b hm)
            rw [← hPs] at ht2
            have h4 := replace_prefix_reflect P R hR1 hR2 f r P2 hshape2 hgt2 ⟨t, ht2⟩
            obtain ⟨u, hu⟩ := h4
            apply hcond
            rw [Bool.and_eq_true]
            constructor
            · simp [hPs]
            · rw [List.isPrefixOf_iff_prefix, hPs, hbc]
              exact ⟨u, by simp [hu]⟩
        | cons c2 l2 =>
          simp only [List.cons_append, List.cons.injEq] at hlt
          obtain ⟨rfl, ht2⟩ := hlt
          have hrlen : r.length ≤ f := by simpa using hf
          exact ih r hrlen ⟨l2, t, ht2⟩

/-- After the sentinel pass no abbreviation of the closed list occurs
    anywhere in the string handed to the sentence splitter. -/
theorem protect_no_abbr :
    ∀ (s : List Char), ∀ B ∈ ABBREVIATIONS, ¬ B <:+: protectAbbrs s := by
  intro s B hB h
  simp only [ABBREVIATIONS, List.map_cons, List.map_nil, List.mem_cons,
    List.not_mem_nil, or_false] at hB
  simp only [protectAbbrs, ABBREVIATIONS, List.map_cons, List.map_nil,
    List.foldl_cons, List.foldl_nil] at h
  rcases hB with rfl | rfl | rfl | rfl | rfl
  · exact replace_self_not_infix ("DR.".toList) (sentinelize ("DR.".toList))
      (by decide) (by decide) (by decide) (by decide) _ _ (le_refl _)
      (replace_infix_reflect ("PROF.".toList) (sentinelize ("PROF.".toList))
        (by decide) (by decide) _ _ _ (by decide) (by decide)
        (replace_infix_reflect ("MR.".toList) (sentinelize ("MR.".toList))
          (by decide) (by decide) _ _ _ (by decide) (by decide)
          (replace_infix_reflect ("MRS.".toList) (sentinelize ("MRS.".toList))
            (by decide) (by decide) _ _ _ (by decide) (by decide)
            (replace_infix_reflect ("MS.".toList) (sentinelize ("MS.".toList))
              (by decide) (by decide) _ _ _ (by decide) (by decide) h))))
  · exact replace_self_not_infix ("PROF.".toList) (sentinelize ("PROF.".toList))
      (by decide) (by decide) (by decide) (by decide) _ _ (le_refl _)
      (replace_infix_reflect ("MR.".toList) (sentinelize ("MR.".toList))
        (by decide) (by decide) _ _ _ (by decide) (by decide)
        (replace_infix_reflect ("MRS.".toList) (sentinelize ("MRS.".toList))
          (by decide) (by decide) _ _ _ (by decide) (by decide)
          (replace_infix_reflect ("MS.".toList) (sentinelize ("MS.".toList))
            (by decide) (by decide) _ _ _ (by decide) (by decide) h)))
  · exact replace_self_not_infix ("MR.".toList) (sentinelize ("MR.".toList))
      (by decide) (by decide) (by decide) (by decide) _ _ (le_refl _)
      (replace_infix_reflect ("MRS.".toList) (sentinelize ("MRS.".toList))
        (by decide) (by decide) _ _ _ (by decide) (by decide)
        (replace_infix_reflect ("MS.".toList) (sentinelize ("MS.".toList))
          (by decide) (by decide) _ _ _ (by decide) (by decide) h))
  · exact replace_self_not_infix ("MRS.".toList) (sentinelize ("MRS.".toList))
      (by decide) (by decide) (by decide) (by decide) _ _ (le_refl _)
      (replace_infix_reflect ("MS.".toList) (sentinelize ("MS.".toList))
        (by decide) (by decide) _ _ _ (by decide) (by decide) h)
  · exact replace_self_not_infix ("MS.".toList) (sentinelize ("MS.".toList))
      (by decide) (by decide) (by decide) (by decide) _ _ (le_refl _) h

/-- C7: `sentence_tokenize` never splits at the internal period of a
    protected abbreviation: after the sentinel substitution pass, no
    abbreviation of the closed list (DR., PROF., MR., MRS., MS.) occurs
    anywhere in the string that is split, so no split can fire at a
    protected period; concretely, `sentence_tokenize("Dr. Abebe.")`
    returns `["DR. ABEBE."]` for the default configuration. -/
theorem c7_abbreviation_protected :
    (∀ (s : List Char), ∀ B ∈ ABBREVIATIONS, ¬ B <:+: protectAbbrs s) ∧
    sentenceTokenize false false ("Dr. Abebe.".toList) =
      Except.ok [("DR. ABEBE.".toList)] :=
  ⟨protect_no_abbr, by rfl⟩

/-- Witness for C7 at a concrete input string and abbreviation. -/
theorem c7_witness :
    ¬ ("DR.".toList <:+: protectAbbrs ("DR. ABEBE CAME. HE LEFT!".toList)) :=
  c7_abbreviation_protected.1 ("DR. ABEBE CAME. HE LEFT!".toList) ("DR.".toList)
    (by decide)

/-! Claim C4 (amended): idempotence of the normalizer on mark-free
    texts. -/

/-- All DIACRITICS keys are accented code points. -/
theorem DIACRITICS_keys : ∀ p ∈ DIACRITICS, 192 ≤ p.1.toNat := by decide

/-- diaFold fixes every character below the accented range. -/
theorem diaFold_base {c : Char} (hc : c.toNat ≤ 191) : diaFold c = c := by
  rw [diaFold, accent_lookup_none hc DIACRITICS_keys]

/-- pyToUpper fixes low characters outside the ASCII lowercase range. -/
theorem pyToUpper_fix_of {c : Char} (h1 : ¬(97 ≤ c.toNat ∧ c.toNat ≤ 122))
    (h2 : c.toNat ≤ 191) : pyToUpper c = c := by
  rw [pyToUpper, if_neg h1, accent_lookup_none h2 UPPER_MAP_keys]

/-- Case analysis of pyToUpper: fixed point, ASCII shift, or the
    accented-vowel table. -/
theorem pyToUpper_cases (c : Char) :
    pyToUpper c = c ∨
    (97 ≤ c.toNat ∧ c.toNat ≤ 122 ∧ (pyToUpper c).toNat = c.toNat - 32) ∨
    (c ∈ UPPER_MAP.map Prod.fst ∧ pyToUpper c ∈ UPPER_MAP.map Prod.snd) := by
  by_cases hr : 97 ≤ c.toNat ∧ c.toNat ≤ 122
  · refine Or.inr (Or.inl ⟨hr.1, hr.2, ?_⟩)
    rw [pyToUpper, if_pos hr, char_toNat_ofNat (by omega)]
  · cases hl : UPPER_MAP.lookup c with
    | none =>
      refine Or.inl ?_
      rw [pyToUpper, if_neg hr, hl]
    | some u =>
      refine Or.inr (Or.inr ⟨lookup_mem_keys _ _ _ hl, ?_⟩)
      rw [pyToUpper, if_neg hr, hl]
      exact lookup_mem_values _ _ _ hl

/-- pyToUpper is idempotent on the modelled repertoire. -/
theorem pyToUpper_idem (c : Char) : pyToUpper (pyToUpper c) = pyToUpper c := by
  rcases pyToUpper_cases c with h | ⟨_, _, h3⟩ | ⟨_, hv⟩
  · rw [h, h]
  · exact pyToUpper_fix_of (by omega) (by omega)
  · simp only [UPPER_MAP, List.map_cons, List.map_nil, List.mem_cons,
      List.not_mem_nil, or_false] at hv
    rcases hv with h | h | h | h | h <;> rw [h] <;> decide

/-- diaFold is idempotent. -/
theorem diaFold_idem (c : Char) : diaFold (diaFold c) = diaFold c := by
  cases hl : DIACRITICS.lookup c with
  | none =>
    have he : diaFold c = c := by rw [diaFold, hl]
    rw [he]
    exact he
  | some b =>
    have he : diaFold c = b := by rw [diaFold, hl]
    rw [he]
    have hb := lookup_mem_values _ _ _ hl
    simp only [DIACRITICS, List.map_cons, List.map_nil, List.mem_cons,
      List.not_mem_nil, or_false] at hb
    rcases hb with h | h | h | h | h | h | h | h | h | h <;> rw [h] <;> decide

/-- A fold-fixed character is not an accented vowel, so its canonical
    decomposition is itself. -/
theorem nfd_of_foldfixed {c : Char} (h : diaFold c = c) : nfdChar c = [c] := by
  rw [nfdChar]
  cases hl : NFD_MAP.lookup c with
  | none => rfl
  | some l =>
    exfalso
    have hk := lookup_mem_keys _ _ _ hl
    simp only [NFD_MAP, List.map_cons, List.map_nil, List.mem_cons,
      List.not_mem_nil, or_false] at hk
    rcases hk with hk | hk | hk | hk | hk | hk | hk | hk | hk | hk <;>
      rw [hk] at h <;> revert h <;> decide

/-- Composition needs a combining mark in second position. -/
theorem composePair_none {a b : Char} (hb : isCombiningMark b = false) :
    composePair a b = none := by
  have hbn : b.toNat ≠ 769 := by
    rw [isCombiningMark] at hb
    simp only [Bool.and_eq_false_iff, decide_eq_false_iff_not] at hb
    omega
  have hbeq : (b == combiningAcute) = false := by
    refine char_beq_false ?_
    rw [combiningAcute, char_toNat_ofNat (by omega)]
    exact hbn
  have hpair : ∀ k : Char, ((a, b) == (k, combiningAcute)) = false := by
    intro k
    show (a == k && b == combiningAcute) = false
    rw [hbeq, Bool.and_false]
  rw [composePair]
  simp [NFC_PAIRS, List.lookup, hpair]

/-- nfcGo is the identity on mark-free strings, for any fuel. -/
theorem nfcGo_id : ∀ (f : Nat) (s : List Char),
    (∀ c ∈ s, isCombiningMark c = false) → nfcGo f s = s := by
  intro f
  induction f with
  | zero => intro s _; rfl
  | succ f ih =>
    intro s hs
    match s with
    | [] => rfl
    | [c] => rfl
    | c1 :: c2 :: rest =>
      show (match composePair c1 c2 with
            | some d => nfcGo f (d :: rest)
            | none => c1 :: nfcGo f (c2 :: rest)) = c1 :: c2 :: rest
      rw [composePair_none (hs c2 (List.mem_cons_of_mem _ (List.mem_cons_self _ _)))]
      show c1 :: nfcGo f (c2 :: rest) = c1 :: c2 :: rest
      rw [ih (c2 :: rest) (fun x hx => hs x (List.mem_cons_of_mem _ hx))]

/-- NFC is the identity on mark-free strings. -/
theorem nfc_id (s : List Char) (h : ∀ c ∈ s, isCombiningMark c = false) :
    nfc s = s := nfcGo_id s.length s h


/-- All punctuation-map keys are curly punctuation code points. -/
theorem PUNCT_keys_ge : ∀ p ∈ PUNCT_MAP, 8211 ≤ p.1.toNat := by decide

/-- Low characters are not punctuation-map keys. -/
theorem notkey_of_le {c : Char} (h : c.toNat ≤ 8210) : c ∉ PUNCT_MAP.map Prod.fst := by
  intro hm
  rw [List.mem_map] at hm
  obtain ⟨p, hp, hpc⟩ := hm
  have := PUNCT_keys_ge p hp
  rw [hpc] at this
  omega

/-- Characters removed by the punctuation filter have low code points. -/
theorem punctNorm_toNat {c : Char} (h : isPunctNorm c = true) : c.toNat ≤ 63 := by
  rw [isPunctNorm] at h
  have hm : c ∈ (['.', ',', '!', '?', ';', ':'] : List Char) := by simpa using h
  simp only [List.mem_cons, List.not_mem_nil, or_false] at hm
  rcases hm with rfl | rfl | rfl | rfl | rfl | rfl <;> decide

/-- Combining marks have high code points. -/
theorem mark_false_of {c : Char} (h : c.toNat ≤ 767) : isCombiningMark c = false := by
  rw [isCombiningMark]
  simp only [Bool.and_eq_false_iff, decide_eq_false_iff_not]
  omega

/-- Zero-width characters have high code points. -/
theorem zw_false_of {c : Char} (h : c.toNat ≤ 8202) : isZeroWidth c = false := by
  rw [isZeroWidth]
  simp only [Bool.or_eq_false_iff, decide_eq_false_iff_not]
  omega

/-- A map is the identity when every element is fixed. -/
theorem map_id_of {f : Char → Char} {s : List Char}
    (h : ∀ c ∈ s, f c = c) : s.map f = s := by
  induction s with
  | nil => rfl
  | cons c r ih =>
    rw [List.map_cons, h c (List.mem_cons_self c r),
      ih (fun x hx => h x (List.mem_cons_of_mem c hx))]

/-- A flatMap is the identity when every element maps to its singleton. -/
theorem flatMap_id_of {g : Char → List Char} {s : List Char}
    (h : ∀ c ∈ s, g c = [c]) : s.flatMap g = s := by
  induction s with
  | nil => rfl
  | cons c r ih =>
    rw [List.flatMap_cons, h c (List.mem_cons_self c r),
      ih (fun x hx => h x (List.mem_cons_of_mem c hx))]
    rfl

/-- Single-character replacement is the identity when the key is
    absent. -/
theorem replaceChar_id {k : Char} {v s : List Char} (h : k ∉ s) :
    replaceChar k v s = s := by
  refine flatMap_id_of ?_
  intro c hc
  have hck : ¬(c = k) := fun he => h (he ▸ hc)
  rw [if_neg hck]

/-- Characters of a single-character replacement output. -/
theorem replaceChar_chars {k c : Char} {v s : List Char}
    (h : c ∈ replaceChar k v s) : c ∈ v ∨ (c ∈ s ∧ c ≠ k) := by
  rw [replaceChar, List.mem_flatMap] at h
  obtain ⟨a, ha, hc⟩ := h
  by_cases hak : a = k
  · rw [if_pos hak] at hc
    exact Or.inl hc
  · rw [if_neg hak] at hc
    rw [List.mem_singleton] at hc
    exact Or.inr ⟨hc ▸ ha, hc ▸ hak⟩

/-- Replacement does not introduce a character absent from both input
    and replacement string. -/
theorem replaceChar_notmem {k c : Char} {v s : List Char}
    (h1 : c ∉ s) (h2 : c ∉ v) : c ∉ replaceChar k v s := by
  intro h
  rcases replaceChar_chars h with h | ⟨h, _⟩
  · exact h2 h
  · exact h1 h

/-- The replaced key is gone when the replacement avoids it. -/
theorem replaceChar_self_notmem {k : Char} {v s : List Char} (h : k ∉ v) :
    k ∉ replaceChar k v s := by
  intro hm
  rcases replaceChar_chars hm with hv | ⟨_, hne⟩
  · exact h hv
  · exact hne rfl

/-- A fold of replacements is the identity when no key occurs. -/
theorem foldl_replace_id : ∀ (ps : List (Char × List Char)) (s : List Char),
    (∀ kv ∈ ps, kv.1 ∉ s) →
    ps.foldl (fun s kv => replaceChar kv.1 kv.2 s) s = s := by
  intro ps
  induction ps with
  | nil => intro s _; rfl
  | cons p rest ih =>
    intro s h
    rw [List.foldl_cons, replaceChar_id (h p (List.mem_cons_self p rest))]
    exact ih s (fun kv hkv => h kv (List.mem_cons_of_mem p hkv))

/-- Characters of a fold of replacements come from the input or from
    one of the replacement strings. -/
theorem foldl_replace_chars : ∀ (ps : List (Char × List Char)) (s : List Char) (c : Char),
    c ∈ ps.foldl (fun s kv => replaceChar kv.1 kv.2 s) s →
    c ∈ s ∨ ∃ kv ∈ ps, c ∈ kv.2 := by
  intro ps
  induction ps with
  | nil => intro s c h; exact Or.inl h
  | cons p rest ih =>
    intro s c h
    rw [List.foldl_cons] at h
    rcases ih _ c h with h2 | ⟨kv, hkv, hc⟩
    · rcases replaceChar_chars h2 with hv | ⟨hs, _⟩
      · exact Or.inr ⟨p, List.mem_cons_self p rest, hv⟩
      · exact Or.inl hs
    · exact Or.inr ⟨kv, List.mem_cons_of_mem p hkv, hc⟩

/-- A fold of replacements does not introduce a character absent from
    the input and from every replacement string. -/
theorem foldl_replace_notmem : ∀ (ps : List (Char × List Char)) (s : List Char) (c : Char),
    c ∉ s → (∀ kv ∈ ps, c ∉ kv.2) →
    c ∉ ps.foldl (fun s kv => replaceChar kv.1 kv.2 s) s := by
  intro ps s c h1 h2 h
  rcases foldl_replace_chars ps s c h with h | ⟨kv, hkv, hc⟩
  · exact h1 h
  · exact h2 kv hkv hc

/-- After a fold of replacements whose replacement strings avoid all
    keys, no key occurs in the output. -/
theorem foldl_replace_nokey : ∀ (ps : List (Char × List Char)) (s : List Char),
    (∀ kv ∈ ps, ∀ kv2 ∈ ps, kv2.1 ∉ kv.2) →
    ∀ c ∈ ps.foldl (fun s kv => replaceChar kv.1 kv.2 s) s, ∀ kv ∈ ps, c ≠ kv.1 := by
  intro ps
  induction ps with
  | nil =>
    intro s _ c _ kv hkv
    exact absurd hkv (List.not_mem_nil kv)
  | cons p rest ih =>
    intro s hdisj c hc kv hkv
    rw [List.foldl_cons] at hc
    rcases List.mem_cons.mp hkv with heq | hkv2
    · subst heq
      intro he
      rw [he] at hc
      refine foldl_replace_notmem rest _ kv.1 ?_ ?_ hc
      · exact replaceChar_self_notmem
          (hdisj kv (List.mem_cons_self kv rest) kv (List.mem_cons_self kv rest))
      · intro kv2 hkv3
        exact hdisj kv2 (List.mem_cons_of_mem kv hkv3) kv (List.mem_cons_self kv rest)
    · exact ih _ (fun a ha b hb =>
        hdisj a (List.mem_cons_of_mem p ha) b (List.mem_cons_of_mem p hb)) c hc kv hkv2


/-- Characters of the whitespace-collapse output: a single space or a
    non-whitespace input character. -/
theorem collapseGo_chars : ∀ (b : Bool) (s : List Char) (c : Char),
    c ∈ collapseGo b s → c = ' ' ∨ (c ∈ s ∧ isWsChar c = false) := by
  intro b s
  induction s generalizing b with
  | nil => intro c h; exact absurd h (List.not_mem_nil c)
  | cons a r ih =>
    intro c h
    rw [collapseGo] at h
    by_cases hw : isWsChar a = true
    · rw [if_pos hw] at h
      by_cases hb : b = true
      · rw [if_pos hb] at h
        rcases ih true c h with h2 | ⟨h2, h3⟩
        · exact Or.inl h2
        · exact Or.inr ⟨List.mem_cons_of_mem a h2, h3⟩
      · rw [if_neg hb] at h
        rcases List.mem_cons.mp h with rfl | h2
        · exact Or.inl rfl
        · rcases ih true c h2 with h3 | ⟨h3, h4⟩
          · exact Or.inl h3
          · exact Or.inr ⟨List.mem_cons_of_mem a h3, h4⟩
    · rw [if_neg hw] at h
      rcases List.mem_cons.mp h with rfl | h2
      · exact Or.inr ⟨List.mem_cons_self c r, Bool.not_eq_true _ ▸ hw⟩
      · rcases ih false c h2 with h3 | ⟨h3, h4⟩
        · exact Or.inl h3
        · exact Or.inr ⟨List.mem_cons_of_mem a h3, h4⟩

/-- After a whitespace run the collapse output starts with a
    non-whitespace character. -/
theorem collapse_head : ∀ (s : List Char), ∀ c ∈ (collapseGo true s).head?,
    isWsChar c = false := by
  intro s
  induction s with
  | nil => intro c h; exact absurd h (by simp [collapseGo])
  | cons a r ih =>
    intro c h
    rw [collapseGo] at h
    by_cases hw : isWsChar a = true
    · rw [if_pos hw, if_pos rfl] at h
      exact ih c h
    · rw [if_neg hw] at h
      rw [List.head?_cons, Option.mem_some_iff] at h
      rw [h] at hw
      simpa using hw

/-- The collapse output never has two adjacent whitespace characters. -/
theorem collapse_chain : ∀ (b : Bool) (s : List Char),
    (collapseGo b s).Chain' (fun a b => !(isWsChar a && isWsChar b)) := by
  intro b s
  induction s generalizing b with
  | nil => exact List.chain'_nil
  | cons a r ih =>
    rw [collapseGo]
    by_cases hw : isWsChar a = true
    · rw [if_pos hw]
      by_cases hb : b = true
      · rw [if_pos hb]
        exact ih true
      · rw [if_neg hb]
        rw [List.chain'_cons']
        refine ⟨?_, ih true⟩
        intro d hd
        rw [collapse_head r d hd, Bool.and_false]
        rfl
    · rw [if_neg hw]
      rw [List.chain'_cons']
      refine ⟨?_, ih false⟩
      intro d _
      rw [Bool.not_eq_true] at hw
      rw [hw, Bool.false_and]
      rfl

/-- Collapse is the identity on strings whose whitespace is single
    spaces with no two adjacent. -/
theorem collapseGo_id : ∀ (b : Bool) (s : List Char),
    (∀ c ∈ s, isWsChar c = true → c = ' ') →
    s.Chain' (fun a b => !(isWsChar a && isWsChar b)) →
    (b = true → ∀ c ∈ s.head?, isWsChar c = false) →
    collapseGo b s = s := by
  intro b s
  induction s generalizing b with
  | nil => intro _ _ _; rfl
  | cons a r ih =>
    intro h1 h2 h3
    rw [collapseGo]
    rw [List.chain'_cons'] at h2
    by_cases hw : isWsChar a = true
    · have hb : b ≠ true := by
        intro hb
        have := h3 hb a (by rw [List.head?_cons]; rfl)
        rw [this] at hw
        exact Bool.false_ne_true hw
      rw [if_pos hw, if_neg hb]
      have ha : a = ' ' := h1 a (List.mem_cons_self a r) hw
      rw [ha]
      have hr : collapseGo true r = r := by
        refine ih true (fun c hc h => h1 c (List.mem_cons_of_mem a hc) h) h2.2 ?_
        intro _ c hc
        have := h2.1 c hc
        rw [hw] at this
        simpa using this
      rw [hr]
    · rw [if_neg hw]
      have hr : collapseGo false r = r := by
        refine ih false (fun c hc h => h1 c (List.mem_cons_of_mem a hc) h) h2.2 ?_
        intro hfalse
        exact absurd hfalse (by simp)
      rw [hr]

/-- trimRight returns a prefix of its input. -/
theorem trimRight_pre : ∀ (s : List Char), trimRight s <+: s := by
  intro s
  induction s with
  | nil => exact List.nil_prefix
  | cons a r ih =>
    rw [trimRight]
    cases ht : trimRight r with
    | nil =>
      by_cases hw : isWsChar a = true
      · rw [if_pos hw]
        exact List.nil_prefix
      · rw [if_neg hw]
        exact ⟨r, rfl⟩
    | cons b t =>
      show a :: b :: t <+: a :: r
      have ih2 : b :: t <+: r := ht ▸ ih
      obtain ⟨u, hu⟩ := ih2
      exact ⟨u, by rw [List.cons_append, hu]⟩

/-- The last character kept by trimRight is not whitespace. -/
theorem trimRight_last : ∀ (s : List Char), ∀ c ∈ (trimRight s).getLast?,
    isWsChar c = false := by
  intro s
  induction s with
  | nil => intro c h; exact absurd h (by simp [trimRight])
  | cons a r ih =>
    intro c h
    rw [trimRight] at h
    cases ht : trimRight r with
    | nil =>
      rw [ht] at h
      by_cases hw : isWsChar a = true
      · rw [if_pos hw] at h
        exact absurd h (by simp)
      · rw [if_neg hw] at h
        rw [List.getLast?_singleton, Option.mem_some_iff] at h
        rw [h] at hw
        simpa using hw
    | cons b t =>
      rw [ht] at h
      rw [getLast?_cons_ne (by simp)] at h
      rw [← ht] at h
      exact ih c h

/-- trimRight is the identity when the last character is not
    whitespace. -/
theorem trimRight_id_last : ∀ (s : List Char),
    (∀ c ∈ s.getLast?, isWsChar c = false) → trimRight s = s := by
  intro s
  induction s with
  | nil => intro _; rfl
  | cons a r ih =>
    intro h
    cases hr : r with
    | nil =>
      subst hr
      have ha := h a (by rw [List.getLast?_singleton]; rfl)
      rw [trimRight]
      show (if isWsChar a then [] else [a]) = [a]
      rw [if_neg (by rw [ha]; exact Bool.false_ne_true)]
    | cons b t =>
      have he : trimRight r = r := by
        refine ih ?_
        intro c hc
        refine h c ?_
        rw [getLast?_cons_ne (by rw [hr]; simp)]
        exact hc
      rw [hr] at he
      rw [trimRight, he]

/-- The head of trimRight, when present, is the head of the input. -/
theorem trimRight_head : ∀ (s : List Char), ∀ c ∈ (trimRight s).head?, c ∈ s.head? := by
  intro s
  cases s with
  | nil => intro c h; exact absurd h (by simp [trimRight])
  | cons a r =>
    intro c h
    rw [trimRight] at h
    cases ht : trimRight r with
    | nil =>
      rw [ht] at h
      by_cases hw : isWsChar a = true
      · rw [if_pos hw] at h
        exact absurd h (by simp)
      · rw [if_neg hw] at h
        rw [List.head?_cons, Option.mem_some_iff] at h ⊢
        simpa using h
    | cons b t =>
      rw [ht] at h
      rw [List.head?_cons, Option.mem_some_iff] at h ⊢
      exact h

/-- The head character kept by dropWhile fails the predicate. -/
theorem dropWhile_head {p : Char → Bool} : ∀ (s : List Char),
    ∀ c ∈ (s.dropWhile p).head?, p c = false := by
  intro s
  induction s with
  | nil => intro c h; exact absurd h (by simp)
  | cons a r ih =>
    intro c h
    rw [List.dropWhile_cons] at h
    by_cases hp : p a = true
    · rw [if_pos hp] at h
      exact ih c h
    · rw [if_neg hp] at h
      rw [List.head?_cons, Option.mem_some_iff] at h
      rw [h] at hp
      simpa using hp

/-- pyStrip returns an infix of its input. -/
theorem pyStrip_within (s : List Char) : pyStrip s <:+: s := by
  rw [pyStrip]
  exact (trimRight_pre _).isInfix.trans (s.dropWhile_suffix isWsChar).isInfix

/-- The first character of a stripped string is not whitespace. -/
theorem pyStrip_head (s : List Char) : ∀ c ∈ (pyStrip s).head?, isWsChar c = false := by
  intro c h
  rw [pyStrip] at h
  exact dropWhile_head s c (trimRight_head _ c h)

/-- The last character of a stripped string is not whitespace. -/
theorem pyStrip_last (s : List Char) : ∀ c ∈ (pyStrip s).getLast?, isWsChar c = false := by
  intro c h
  rw [pyStrip] at h
  exact trimRight_last _ c h

/-- pyStrip is the identity when the string starts and ends with
    non-whitespace. -/
theorem pyStrip_id_ends {s : List Char}
    (h1 : ∀ c ∈ s.head?, isWsChar c = false)
    (h2 : ∀ c ∈ s.getLast?, isWsChar c = false) : pyStrip s = s := by
  rw [pyStrip]
  have hd : s.dropWhile isWsChar = s := by
    cases s with
    | nil => rfl
    | cons a r =>
      refine List.dropWhile_cons_of_neg ?_
      have := h1 a (by rw [List.head?_cons]; rfl)
      simp [this]
  rw [hd]
  exact trimRight_id_last s h2


/-- Whitespace characters have low code points. -/
theorem ws_false_of {c : Char} (h : 33 ≤ c.toNat) : isWsChar c = false := by
  rw [isWsChar]
  simp only [Bool.or_eq_false_iff, decide_eq_false_iff_not]
  omega

/-- Digits occupy a fixed code-point range. -/
theorem digit_false_of {c : Char} (h : 58 ≤ c.toNat ∨ c.toNat ≤ 47) :
    isDigitChar c = false := by
  rw [isDigitChar]
  simp only [Bool.and_eq_false_iff, decide_eq_false_iff_not]
  omega

/-- All punctuation-map replacement characters are ASCII. -/
theorem PUNCT_vals_low : ∀ kv ∈ PUNCT_MAP, ∀ c ∈ kv.2, c.toNat ≤ 127 := by decide

/-- No punctuation-map replacement contains a punctuation-map key. -/
theorem PUNCT_disj : ∀ kv ∈ PUNCT_MAP, ∀ kv2 ∈ PUNCT_MAP, kv2.1 ∉ kv.2 := by decide

/-- All DIACRITICS values are ASCII. -/
theorem DIACRITICS_vals_low : ∀ p ∈ DIACRITICS, p.2.toNat ≤ 127 := by decide

/-- diaFold returns the input or a table value. -/
theorem diaFold_cases (c : Char) : diaFold c = c ∨ diaFold c ∈ DIACRITICS.map Prod.snd := by
  rw [diaFold]
  cases hl : DIACRITICS.lookup c with
  | none => exact Or.inl rfl
  | some b => exact Or.inr (lookup_mem_values _ _ _ hl)

/-- On fold-fixed characters pyToUpper is fixed or ASCII uppercase. -/
theorem pyToUpper_of_fold {c : Char} (hF : diaFold c = c) :
    pyToUpper c = c ∨ (65 ≤ (pyToUpper c).toNat ∧ (pyToUpper c).toNat ≤ 90) := by
  rcases pyToUpper_cases c with h | ⟨h1, h2, h3⟩ | ⟨hk, _⟩
  · exact Or.inl h
  · exact Or.inr ⟨by omega, by omega⟩
  · exfalso
    simp only [UPPER_MAP, List.map_cons, List.map_nil, List.mem_cons,
      List.not_mem_nil, or_false] at hk
    rcases hk with h | h | h | h | h <;> rw [h] at hF <;> revert hF <;> decide

/-- A character differing from every key is not in the key list. -/
theorem notmem_map_fst_of {c : Char} {l : List (Char × List Char)}
    (h : ∀ kv ∈ l, c ≠ kv.1) : c ∉ l.map Prod.fst := by
  intro hm
  rw [List.mem_map] at hm
  obtain ⟨p, hp, hpc⟩ := hm
  exact h p hp hpc.symm


/-- The space character satisfies the invariant for every
    configuration. -/
theorem okC4_space (cfg : NormConfig) : okC4 cfg ' ' :=
  ⟨by decide, by decide, fun _ => by decide, by decide, fun _ => by decide,
   fun _ => by decide, fun _ => by decide, fun _ => by decide⟩

/-- Every character of a normalizer output satisfies the invariant,
    provided the input has no combining marks. -/
theorem normalize_ok (cfg : NormConfig) (t : List Char)
    (ht : ∀ c ∈ t, isCombiningMark c = false) :
    ∀ c ∈ normalize cfg t, okC4 cfg c := by
  by_cases hemp : t.isEmpty = true
  · intro c hc
    rw [normalize, if_pos hemp] at hc
    exact absurd hc (List.not_mem_nil c)
  · rw [normalize, if_neg hemp]
    simp only [nfc_id t ht]
    set t2 := t.map (fun c => if isZeroWidth c then ' ' else c) with ht2
    set t3 := if cfg.standardizePunctuation then
        PUNCT_MAP.foldl (fun s kv => replaceChar kv.1 kv.2 s) t2 else t2 with ht3
    set t4 := t3.map diaFold with ht4
    set t5 := if cfg.removeDiacritics then stripDiaNorm t4 else t4 with ht5
    set t6 := if cfg.removeNumbers then t5.filter (fun c => !isDigitChar c) else t5 with ht6
    set t7 := if cfg.removePunctuation then t6.filter (fun c => !isPunctNorm c) else t6
      with ht7
    set t8 := if cfg.removeSpecialChars then
        (t7.map (fun c => if c = '-' then ' ' else c)).filter
          (fun c => isWordChar c || isWsChar c || c = '\'') else t7 with ht8
    set t9 := if cfg.normalizeCase && !cfg.preserveCase then t8.map pyToUpper else t8
      with ht9
    have H2 : ∀ c ∈ t2, isCombiningMark c = false ∧ isZeroWidth c = false := by
      intro c hc
      rw [ht2, List.mem_map] at hc
      obtain ⟨a, ha, rfl⟩ := hc
      by_cases hz : isZeroWidth a = true
      · rw [if_pos hz]
        exact ⟨by decide, by decide⟩
      · rw [if_neg hz]
        exact ⟨ht a ha, by simpa using hz⟩
    have H3 : ∀ c ∈ t3, (isCombiningMark c = false ∧ isZeroWidth c = false) ∧
        (cfg.standardizePunctuation = true → c ∉ PUNCT_MAP.map Prod.fst) := by
      intro c hc
      rw [ht3] at hc
      by_cases hsp : cfg.standardizePunctuation = true
      · rw [if_pos hsp] at hc
        constructor
        · rcases foldl_replace_chars _ _ _ hc with h | ⟨kv, hkv, hv⟩
          · exact H2 c h
          · have hlow := PUNCT_vals_low kv hkv c hv
            exact ⟨mark_false_of (by omega), zw_false_of (by omega)⟩
        · intro _
          exact notmem_map_fst_of (foldl_replace_nokey PUNCT_MAP t2 PUNCT_disj c hc)
      · rw [if_neg hsp] at hc
        exact ⟨H2 c hc, fun h => absurd h hsp⟩
    have H4 : ∀ c ∈ t4, ((isCombiningMark c = false ∧ isZeroWidth c = false) ∧
        (cfg.standardizePunctuation = true → c ∉ PUNCT_MAP.map Prod.fst)) ∧
        diaFold c = c := by
      intro c hc
      rw [ht4, List.mem_map] at hc
      obtain ⟨a, ha, rfl⟩ := hc
      refine ⟨?_, diaFold_idem a⟩
      rcases diaFold_cases a with he | hv
      · rw [he]
        exact H3 a ha
      · have hlow : (diaFold a).toNat ≤ 127 := by
          rw [List.mem_map] at hv
          obtain ⟨p, hp, hpc⟩ := hv
          rw [← hpc]
          exact DIACRITICS_vals_low p hp
        exact ⟨⟨mark_false_of (by omega), zw_false_of (by omega)⟩,
          fun _ => notkey_of_le (by omega)⟩
    have H5eq : t5 = t4 := by
      rw [ht5]
      have hs : stripDiaNorm t4 = t4 := by
        rw [stripDiaNorm]
        rw [flatMap_id_of (fun c hc => nfd_of_foldfixed (H4 c hc).2)]
        refine List.filter_eq_self.mpr ?_
        intro a ha
        simp [(H4 a ha).1.1.1]
      rw [hs, ite_self]
    have H6 : ∀ c ∈ t6, (((isCombiningMark c = false ∧ isZeroWidth c = false) ∧
        (cfg.standardizePunctuation = true → c ∉ PUNCT_MAP.map Prod.fst)) ∧
        diaFold c = c) ∧
        (cfg.removeNumbers = true → isDigitChar c = false) := by
      intro c hc
      rw [ht6, H5eq] at hc
      by_cases hrn : cfg.removeNumbers = true
      · rw [if_pos hrn] at hc
        rw [List.mem_filter] at hc
        exact ⟨H4 c hc.1, fun _ => by simpa using hc.2⟩
      · rw [if_neg hrn] at hc
        exact ⟨H4 c hc, fun h => absurd h hrn⟩
    have H7 : ∀ c ∈ t7, ((((isCombiningMark c = false ∧ isZeroWidth c = false) ∧
        (cfg.standardizePunctuation = true → c ∉ PUNCT_MAP.map Prod.fst)) ∧
        diaFold c = c) ∧
        (cfg.removeNumbers = true → isDigitChar c = false)) ∧
        (cfg.removePunctuation = true → isPunctNorm c = false) := by
      intro c hc
      rw [ht7] at hc
      by_cases hrp : cfg.removePunctuation = true
      · rw [if_pos hrp] at hc
        rw [List.mem_filter] at hc
        exact ⟨H6 c hc.1, fun _ => by simpa using hc.2⟩
      · rw [if_neg hrp] at hc
        exact ⟨H6 c hc, fun h => absurd h hrp⟩
    have H8 : ∀ c ∈ t8, (((((isCombiningMark c = false ∧ isZeroWidth c = false) ∧
        (cfg.standardizePunctuation = true → c ∉ PUNCT_MAP.map Prod.fst)) ∧
        diaFold c = c) ∧
        (cfg.removeNumbers = true → isDigitChar c = false)) ∧
        (cfg.removePunctuation = true → isPunctNorm c = false)) ∧
        (cfg.removeSpecialChars = true →
          c ≠ '-' ∧ (isWordChar c || isWsChar c || c = '\'') = true) := by
      intro c hc
      rw [ht8] at hc
      by_cases hrsc : cfg.removeSpecialChars = true
      · rw [if_pos hrsc] at hc
        rw [List.mem_filter] at hc
        obtain ⟨hmem, hpred⟩ := hc
        rw [List.mem_map] at hmem
        obtain ⟨a, ha, rfl⟩ := hmem
        constructor
        · by_cases hdash : a = '-'
          · rw [if_pos hdash]
            exact ⟨⟨⟨⟨⟨by decide, by decide⟩, fun _ => by decide⟩, by decide⟩,
              fun _ => by decide⟩, fun _ => by decide⟩
          · rw [if_neg hdash]
            exact H7 a ha
        · intro _
          refine ⟨?_, hpred⟩
          intro he
          rw [he] at hpred
          exact absurd hpred (by decide)
      · rw [if_neg hrsc] at hc
        exact ⟨H7 c hc, fun h => absurd h hrsc⟩
    have H9 : ∀ c ∈ t9, okC4 cfg c := by
      intro c hc
      rw [ht9] at hc
      by_cases hcase : (cfg.normalizeCase && !cfg.preserveCase) = true
      · rw [if_pos hcase] at hc
        rw [List.mem_map] at hc
        obtain ⟨a, ha, rfl⟩ := hc
        obtain ⟨⟨⟨⟨⟨⟨hm, hz⟩, hk⟩, hf⟩, hd⟩, hp⟩, hs⟩ := H8 a ha
        rcases pyToUpper_of_fold hf with he | ⟨h65, h90⟩
        · rw [he]
          exact ⟨hm, hz, hk, hf, hd, hp, hs, fun _ => he ▸ pyToUpper_idem a⟩
        · refine ⟨mark_false_of (by omega), zw_false_of (by omega),
            fun _ => notkey_of_le (by omega), diaFold_base (by omega),
            fun _ => digit_false_of (by omega),
            fun _ => ?_, fun hrsc => ⟨?_, ?_⟩, fun _ => pyToUpper_idem a⟩
          · cases hpn : isPunctNorm (pyToUpper a) with
            | false => rfl
            | true => exact absurd (punctNorm_toNat hpn) (by omega)
          · intro he
            have := congrArg Char.toNat he
            simp at this
            omega
          · rw [isWordChar, isAsciiLetter]
            simp only [Bool.or_eq_true, Bool.and_eq_true, decide_eq_true_eq]
            left
            left
            left
            omega
      · rw [if_neg hcase] at hc
        obtain ⟨⟨⟨⟨⟨⟨hm, hz⟩, hk⟩, hf⟩, hd⟩, hp⟩, hs⟩ := H8 c hc
        exact ⟨hm, hz, hk, hf, hd, hp, hs, fun h => absurd h hcase⟩
    intro c hc
    by_cases hres : cfg.removeExtraSpaces = true
    · rw [if_pos hres] at hc
      have hc2 : c ∈ collapseWs t9 := (pyStrip_within _).subset hc
      rcases collapseGo_chars false t9 c hc2 with rfl | ⟨h3, _⟩
      · exact okC4_space cfg
      · exact H9 c h3
    · rw [if_neg hres] at hc
      exact H9 c hc

/-- Whitespace shape of a stripped, collapsed string. -/
theorem strip_collapse_shape (z : List Char) :
    (pyStrip (collapseWs z)).Chain' (fun a b => !(isWsChar a && isWsChar b)) ∧
    (∀ c ∈ (pyStrip (collapseWs z)).head?, isWsChar c = false) ∧
    (∀ c ∈ (pyStrip (collapseWs z)).getLast?, isWsChar c = false) ∧
    (∀ c ∈ pyStrip (collapseWs z), isWsChar c = true → c = ' ') := by
  refine ⟨ List.Chain'.infix (collapse_chain false z) (pyStrip_within _),
    pyStrip_head _, pyStrip_last _, ?_⟩
  intro c hc hws
  rcases collapseGo_chars false z c ((pyStrip_within _).subset hc) with h | ⟨_, h⟩
  · exact h
  · rw [h] at hws
    exact absurd hws (by simp)

/-- Whitespace shape of a normalizer output when extra-space removal is
    on. -/
theorem normalize_shape (cfg : NormConfig) (t : List Char)
    (hres : cfg.removeExtraSpaces = true) :
    (normalize cfg t).Chain' (fun a b => !(isWsChar a && isWsChar b)) ∧
    (∀ c ∈ (normalize cfg t).head?, isWsChar c = false) ∧
    (∀ c ∈ (normalize cfg t).getLast?, isWsChar c = false) ∧
    (∀ c ∈ normalize cfg t, isWsChar c = true → c = ' ') := by
  by_cases hemp : t.isEmpty = true
  · rw [normalize, if_pos hemp]
    exact ⟨List.chain'_nil, by simp, by simp, by simp⟩
  · rw [normalize, if_neg hemp]
    simp only [hres, if_true]
    exact strip_collapse_shape _


/-- C4 (amended): for every configuration, normalize is idempotent on
    texts without combining marks: the second pass finds every cleaning
    step already done and returns its input unchanged. -/
theorem c4_idempotent_amended :
    ∀ (cfg : NormConfig) (t : List Char),
      (∀ c ∈ t, isCombiningMark c = false) →
      normalize cfg (normalize cfg t) = normalize cfg t := by
  intro cfg t ht
  have hok := normalize_ok cfg t ht
  have hshape := normalize_shape cfg t
  set y := normalize cfg t with hy
  by_cases hyemp : y.isEmpty = true
  · rw [normalize, if_pos hyemp]
    exact (List.isEmpty_iff.mp hyemp).symm
  · rw [normalize, if_neg hyemp]
    have hM : ∀ c ∈ y, isCombiningMark c = false := fun c hc => (hok c hc).1
    have e1 : nfc y = y := nfc_id y hM
    have e2 : y.map (fun c => if isZeroWidth c then ' ' else c) = y :=
      map_id_of (fun c hc => by simp [(hok c hc).2.1])
    have e3 : (if cfg.standardizePunctuation then
        PUNCT_MAP.foldl (fun s kv => replaceChar kv.1 kv.2 s) y else y) = y := by
      by_cases hsp : cfg.standardizePunctuation = true
      · rw [if_pos hsp]
        refine foldl_replace_id _ _ ?_
        intro kv hkv hmem
        exact ((hok kv.1 hmem).2.2.1 hsp) (List.mem_map.mpr ⟨kv, hkv, rfl⟩)
      · rw [if_neg hsp]
    have e4 : y.map diaFold = y := map_id_of (fun c hc => (hok c hc).2.2.2.1)
    have e5 : (if cfg.removeDiacritics then stripDiaNorm y else y) = y := by
      have hsd : stripDiaNorm y = y := by
        rw [stripDiaNorm]
        rw [flatMap_id_of (fun c hc => nfd_of_foldfixed (hok c hc).2.2.2.1)]
        refine List.filter_eq_self.mpr ?_
        intro a ha
        simp [hM a ha]
      rw [hsd, ite_self]
    have e6 : (if cfg.removeNumbers then y.filter (fun c => !isDigitChar c) else y) = y := by
      by_cases hrn : cfg.removeNumbers = true
      · rw [if_pos hrn]
        refine List.filter_eq_self.mpr ?_
        intro a ha
        simp [(hok a ha).2.2.2.2.1 hrn]
      · rw [if_neg hrn]
    have e7 : (if cfg.removePunctuation then y.filter (fun c => !isPunctNorm c) else y)
        = y := by
      by_cases hrp : cfg.removePunctuation = true
      · rw [if_pos hrp]
        refine List.filter_eq_self.mpr ?_
        intro a ha
        simp [(hok a ha).2.2.2.2.2.1 hrp]
      · rw [if_neg hrp]
    have e8 : (if cfg.removeSpecialChars then
        (y.map (fun c => if c = '-' then ' ' else c)).filter
          (fun c => isWordChar c || isWsChar c || c = '\'') else y) = y := by
      by_cases hrsc : cfg.removeSpecialChars = true
      · rw [if_pos hrsc]
        have hmap : y.map (fun c => if c = '-' then ' ' else c) = y :=
          map_id_of (fun c hc => by
            rw [if_neg ((hok c hc).2.2.2.2.2.2.1 hrsc).1])
        rw [hmap]
        refine List.filter_eq_self.mpr ?_
        intro a ha
        exact ((hok a ha).2.2.2.2.2.2.1 hrsc).2
      · rw [if_neg hrsc]
    have e9 : (if cfg.normalizeCase && !cfg.preserveCase then y.map pyToUpper else y)
        = y := by
      by_cases hcase : (cfg.normalizeCase && !cfg.preserveCase) = true
      · rw [if_pos hcase]
        exact map_id_of (fun c hc => (hok c hc).2.2.2.2.2.2.2 hcase)
      · rw [if_neg hcase]
    have e10 : (if cfg.removeExtraSpaces then pyStrip (collapseWs y) else y) = y := by
      by_cases hres : cfg.removeExtraSpaces = true
      · rw [if_pos hres]
        obtain ⟨hch, hhd, hlast, hws⟩ := hshape hres
        have hcol : collapseWs y = y := by
          rw [collapseWs]
          exact collapseGo_id false y hws hch (fun hf => absurd hf (by simp))
        rw [hcol]
        exact pyStrip_id_ends hhd hlast
      · rw [if_neg hres]
    simp only [e1, e2, e3, e4, e5, e6, e7, e8, e9, e10]

/-- Witness for C4 at the remove-numbers configuration and a concrete
    text. -/
theorem c4_witness :
    normalize removeNumbersConfig
        (normalize removeNumbersConfig ("Qubee  123, dhufe!".toList)) =
      normalize removeNumbersConfig ("Qubee  123, dhufe!".toList) :=
  c4_idempotent_amended removeNumbersConfig ("Qubee  123, dhufe!".toList) (by decide)

end Qubee
